import Mathlib

/-!
Verification development for the OpenAPI custom-extension validator
(`src/validator/validator.ts`).  The TypeScript source is shallowly embedded:
parsed YAML values become the inductive `JsValue`, JavaScript property access
(which throws a `TypeError` on `null`/`undefined` receivers) becomes an
`Except JsError` computation, and the line-oriented location scanner
`findYamlLocation` is translated over `List Char` so that every definition
reduces inside the kernel.  The external `yaml` parser and the `ajv` schema
checker are not part of the repository; `validateDocument` therefore takes the
parse outcome and the schema-error list as parameters, exactly at the points
where the source calls into those libraries.
-/

/-- JavaScript runtime values produced by parsing YAML, together with the
`undefined` value that property access on a missing key yields. -/
inductive JsValue where
  | nullV : JsValue
  | undefV : JsValue
  | str : String → JsValue
  | num : Int → JsValue
  | bool : Bool → JsValue
  | arr : List JsValue → JsValue
  | obj : List (String × JsValue) → JsValue

/-- The only JavaScript exception the embedded code can raise: the
`TypeError` thrown by property access on `null`/`undefined`, by the `in`
operator on a primitive, or by calling `forEach` on a non-array. -/
inductive JsError where
  | typeError : JsError
deriving DecidableEq, Repr

/-- JavaScript `typeof`, as used in the mismatch messages. -/
def jsTypeof : JsValue → String
  | .nullV => "object"
  | .undefV => "undefined"
  | .str _ => "string"
  | .num _ => "number"
  | .bool _ => "boolean"
  | .arr _ => "object"
  | .obj _ => "object"

/-- JavaScript truthiness of a value. -/
def truthy : JsValue → Bool
  | .nullV => false
  | .undefV => false
  | .str s => !(s == "")
  | .num n => !(n == 0)
  | .bool b => b
  | .arr _ => true
  | .obj _ => true

/-- `Array.isArray`. -/
def isArray : JsValue → Bool
  | .arr _ => true
  | _ => false

/-- First binding of a key in an object field list. -/
def lookupField : List (String × JsValue) → String → Option JsValue
  | [], _ => none
  | (k, v) :: rest, key => if k == key then some v else lookupField rest key

/-- Whether a key is bound in an object field list. -/
def hasField : List (String × JsValue) → String → Bool
  | [], _ => false
  | (k, _) :: rest, key => k == key || hasField rest key

/-- A canonical array index: the key is the decimal print of some `i < n`. -/
def stringIndex (key : String) (n : Nat) : Option Nat :=
  match key.toNat? with
  | some i => if toString i == key && Nat.blt i n then some i else none
  | none => none

/-- JavaScript property read `v[key]`; throws on `null`/`undefined`. -/
def getProp : JsValue → String → Except JsError JsValue
  | .nullV, _ => .error .typeError
  | .undefV, _ => .error .typeError
  | .obj fs, key => .ok ((lookupField fs key).getD .undefV)
  | .arr xs, key =>
      .ok (if key == "length" then .num (Int.ofNat xs.length)
           else match stringIndex key xs.length with
                | some i => xs.getD i .undefV
                | none => .undefV)
  | .str s, key =>
      .ok (if key == "length" then .num (Int.ofNat s.length)
           else match stringIndex key s.length with
                | some i => .str (String.mk [s.data.getD i ' '])
                | none => .undefV)
  | .num _, _ => .ok .undefV
  | .bool _, _ => .ok .undefV

/-- JavaScript `v.hasOwnProperty(key)`; throws on `null`/`undefined`. -/
def hasOwn : JsValue → String → Except JsError Bool
  | .nullV, _ => .error .typeError
  | .undefV, _ => .error .typeError
  | .obj fs, key => .ok (hasField fs key)
  | .arr xs, key => .ok (key == "length" || (stringIndex key xs.length).isSome)
  | .str s, key => .ok (key == "length" || (stringIndex key s.length).isSome)
  | _, _ => .ok false

/-- JavaScript `key in v`; throws a `TypeError` on primitives. -/
def jsIn (key : String) : JsValue → Except JsError Bool
  | .obj fs => .ok (hasField fs key)
  | .arr xs => .ok (key == "length" || (stringIndex key xs.length).isSome)
  | _ => .error .typeError

/-- `Object.keys`, for the values it is applied to in the source
(it is only reached behind a truthiness guard). -/
def objKeys : JsValue → List String
  | .obj fs => (fs.map Prod.fst).eraseDups
  | .arr xs => (List.range xs.length).map toString
  | .str s => (List.range s.length).map toString
  | _ => []

/-- Whitespace class used by the scanner (the JavaScript regex class). -/
def isJsSpace (c : Char) : Bool := c.isWhitespace

/-- Character class of the key regex: letters, digits, underscore, hyphen. -/
def isKeyChar (c : Char) : Bool := c.isAlpha || c.isDigit || c == '_' || c == '-'

/-- `line.trim()` over the character list of a line. -/
def trimChars (cs : List Char) : List Char :=
  ((cs.dropWhile isJsSpace).reverse.dropWhile isJsSpace).reverse

/-- The trimmed line starts a sequence item: regex `- ` at the start. -/
def startsDash : List Char → Bool
  | '-' :: ' ' :: _ => true
  | _ => false

/-- Match `([A-Za-z0-9_-]+)\s*:` at the head of the characters. -/
def parseKeyFrom (cs : List Char) : Option String :=
  match cs.takeWhile isKeyChar with
  | [] => none
  | key =>
      match (cs.drop key.length).dropWhile isJsSpace with
      | ':' :: _ => some (String.mk key)
      | _ => none

/-- Match the key regex of the source, `(?:-\s+)?([A-Za-z0-9_-]+)\s*:`,
anchored at the start of the trimmed line, including the backtracking case
where the optional dash group is not taken although the line starts with a
dash (the dash itself is in the key character class). -/
def matchKeyLine (cs : List Char) : Option String :=
  match cs with
  | '-' :: rest =>
      let ws := rest.takeWhile isJsSpace
      if ws.length == 0 then parseKeyFrom cs
      else
        match parseKeyFrom (rest.drop ws.length) with
        | some k => some k
        | none => parseKeyFrom cs
  | _ => parseKeyFrom cs

/-- `getIndentation` of the source: leading-whitespace count of a line that
contains a non-space character, and 0 otherwise (blank lines included). -/
def getIndentation (cs : List Char) : Nat :=
  let ws := cs.takeWhile isJsSpace
  if ws.length == cs.length then 0 else ws.length

/-- Split a character stream at newline characters, like `split('\n')`. -/
def splitLinesAux : List Char → List Char → List (List Char)
  | [], acc => [acc.reverse]
  | '\n' :: rest, acc => acc.reverse :: splitLinesAux rest []
  | c :: rest, acc => splitLinesAux rest (c :: acc)

/-- The lines of the document text. -/
def splitLines (content : String) : List (List Char) :=
  splitLinesAux content.data []

/-- Split a path string at slashes. -/
def splitSlashAux : List Char → List Char → List String
  | [], acc => [String.mk acc.reverse]
  | '/' :: rest, acc => String.mk acc.reverse :: splitSlashAux rest []
  | c :: rest, acc => splitSlashAux rest (c :: acc)

/-- `extensionPath.split('/').filter(part => part.length > 0)`. -/
def pathPartsOf (p : String) : List String :=
  (splitSlashAux p.data []).filter (fun s => decide (0 < s.length))

/-- A 1-based line/column position. -/
structure YamlPos where
  line : Nat
  column : Nat
deriving DecidableEq, Repr

/-- The scanning loop of `findYamlLocation`: one iteration per line, keeping
the count of matched path segments (`depth`) and the running sequence index
(`arrayIndex`, reset to `-1` on every line whose indentation is 0). -/
def scanLines (pathParts : List String) :
    List (List Char) → Nat → Nat → Int → Option YamlPos
  | [], _, _, _ => none
  | line :: rest, i, depth, arrayIndex =>
      let trimmed := trimChars line
      let isItem := startsDash trimmed
      let ai := if isItem then arrayIndex + 1 else arrayIndex
      let hit1 := isItem && (pathParts.get? depth == some (toString ai))
      let depth1 := if hit1 then depth + 1 else depth
      if hit1 && (depth1 == pathParts.length) then
        some ⟨i + 1, getIndentation line + 3⟩
      else
        let keyHit :=
          match matchKeyLine trimmed with
          | some k => pathParts.get? depth1 == some k
          | none => false
        let depth2 := if keyHit then depth1 + 1 else depth1
        if keyHit && (depth2 == pathParts.length) then
          some ⟨i + 1, getIndentation line + 1⟩
        else
          scanLines pathParts rest (i + 1) depth2
            (if getIndentation line == 0 then -1 else ai)

/-- `findYamlLocation` of the source: heuristic line scan of the raw text. -/
def findYamlLocation (content : String) (extensionPath : String) : Option YamlPos :=
  scanLines (pathPartsOf extensionPath) (splitLines content) 0 0 (-1)

/-- `findExtensionLocation` merely forwards to `findYamlLocation`. -/
def findExtensionLocation (content : String) (extensionName : String) : Option YamlPos :=
  findYamlLocation content extensionName

example : findYamlLocation "a: 1" "a" = some ⟨1, 1⟩ := by decide
example : findYamlLocation "a: 1" "b" = none := by decide
example : findYamlLocation "servers:\n  - url: a\n  - url: b" "servers/1/url" =
    some ⟨3, 3⟩ := by decide

/-- The five structural locations a rule can target (`ExtensionLocationEnum`). -/
inductive ExtensionLocation where
  | Root
  | Servers
  | Tags
  | Parameters
  | RequestBody
deriving DecidableEq, Repr

/-- A configured custom-extension rule (`CustomExtension`).  The `in` field of
the source is spelled `locIn` because `in` is a Lean keyword; `required` is
`boolean | string[]` in the source type, embedded as an optional sum. -/
structure CustomExtension where
  locIn : ExtensionLocation
  name : String
  type : String
  required : Option (Sum Bool (List String)) := none
  description : Option String := none
deriving DecidableEq, Repr

/-- One reported validation finding (`ValidationError`); the optional
`range` field of the source is editor glue carrying no further data and is
omitted. -/
structure ValidationError where
  message : String
  line : Option Nat := none
  column : Option Nat := none
  extensionName : String
  severity : String
deriving DecidableEq, Repr

/-- A warning finding (`ValidationWarning`). -/
structure ValidationWarning where
  message : String
  line : Option Nat := none
  column : Option Nat := none
  extensionName : Option String := none
deriving DecidableEq, Repr

/-- The result object (`ValidationResult`). -/
structure ValidationResult where
  isValid : Bool
  errors : List ValidationError
  warnings : List ValidationWarning
deriving DecidableEq, Repr

/-- One error reported by the external `ajv` schema checker: the fields the
source reads from it (`instancePath` and `params.additionalProperty`). -/
structure AjvError where
  instancePath : String
  additionalProperty : Option String
deriving DecidableEq, Repr

/-- `validateExtensionType` of the source: the switch over the declared type
name, with JavaScript `typeof` semantics. -/
def validateExtensionType (value : JsValue) (expectedType : String) : Bool :=
  match expectedType with
  | "string" => jsTypeof value == "string"
  | "number" => jsTypeof value == "number"
  | "boolean" => jsTypeof value == "boolean"
  | "object" =>
      jsTypeof value == "object" &&
      !(match value with | .nullV => true | _ => false) &&
      !(isArray value)
  | "array" => isArray value
  | _ => false

/-- `hasExtension` of the source: when a section argument is passed and is
truthy, containment is tested on the section, otherwise on the document
(`sectionV` stands for the `section` parameter, a Lean keyword). -/
def hasExtension (document : JsValue) (extensionName : String)
    (sectionV : Option JsValue) : Except JsError Bool :=
  match sectionV with
  | some s => if truthy s then hasOwn s extensionName else hasOwn document extensionName
  | none => hasOwn document extensionName

/-- Build a finding with severity `error` from a message, an optional
position, and the extension name. -/
def mkError (message : String) (location : Option YamlPos)
    (extensionName : String) : ValidationError :=
  { message := message
    line := location.map YamlPos.line
    column := location.map YamlPos.column
    extensionName := extensionName
    severity := "error" }

/-- `validateRootExtension` of the source. -/
def validateRootExtension (document : JsValue) (content : String)
    (ext : CustomExtension) : Except JsError (List ValidationError) := do
  let has ← hasExtension document ext.name none
  let location := findExtensionLocation content ext.name
  if !has then
    pure [mkError ("Missing required custom extension: " ++ ext.name) location ext.name]
  else do
    let value ← getProp document ext.name
    if !(validateExtensionType value ext.type) then
      pure [mkError ("Extension " ++ ext.name ++ " should be of type " ++ ext.type ++
        ", got " ++ jsTypeof value) location ext.name]
    else
      pure []

/-- The per-entry loop body of `validateServersExtension`
(`document.servers.forEach`). -/
def validateServersEntries (document : JsValue) (content : String)
    (ext : CustomExtension) : List JsValue → Nat → Except JsError (List ValidationError)
  | [], _ => .ok []
  | server :: rest, index => do
      let has ← hasExtension document ext.name (some server)
      let location := findExtensionLocation content
        ("servers/" ++ toString index ++ "/" ++ ext.name)
      let here ←
        if !has then
          pure [mkError ("Missing required custom extension: " ++ ext.name ++
            " in servers[" ++ toString index ++ "]") location ext.name]
        else do
          let value ← getProp server ext.name
          if !(validateExtensionType value ext.type) then
            pure [mkError ("Extension " ++ ext.name ++ " in servers[" ++ toString index ++
              "] should be of type " ++ ext.type ++ ", got " ++ jsTypeof value)
              location ext.name]
          else
            pure []
      let more ← validateServersEntries document content ext rest (index + 1)
      pure (here ++ more)

/-- `validateServersExtension` of the source: skip unless `document.servers`
is a truthy array (the property read itself can throw on a null document). -/
def validateServersExtension (document : JsValue) (content : String)
    (ext : CustomExtension) : Except JsError (List ValidationError) := do
  let serversV ← getProp document "servers"
  if !(truthy serversV) || !(isArray serversV) then
    pure []
  else
    match serversV with
    | .arr entries => validateServersEntries document content ext entries 0
    | _ => pure []

/-- The per-entry loop body of `validateTagsExtension`. -/
def validateTagsEntries (document : JsValue) (content : String)
    (ext : CustomExtension) : List JsValue → Nat → Except JsError (List ValidationError)
  | [], _ => .ok []
  | tag :: rest, index => do
      let has ← hasExtension document ext.name (some tag)
      let location := findExtensionLocation content
        ("tags/" ++ toString index ++ "/" ++ ext.name)
      let here ←
        if !has then
          pure [mkError ("Missing required custom extension: " ++ ext.name ++
            " in tags[" ++ toString index ++ "]") location ext.name]
        else do
          let value ← getProp tag ext.name
          if !(validateExtensionType value ext.type) then
            pure [mkError ("Extension " ++ ext.name ++ " in tags[" ++ toString index ++
              "] should be of type " ++ ext.type ++ ", got " ++ jsTypeof value)
              location ext.name]
          else
            pure []
      let more ← validateTagsEntries document content ext rest (index + 1)
      pure (here ++ more)

/-- `validateTagsExtension` of the source. -/
def validateTagsExtension (document : JsValue) (content : String)
    (ext : CustomExtension) : Except JsError (List ValidationError) := do
  let tagsV ← getProp document "tags"
  if !(truthy tagsV) || !(isArray tagsV) then
    pure []
  else
    match tagsV with
    | .arr entries => validateTagsEntries document content ext entries 0
    | _ => pure []

/-- A `parameters` array walk shared by the path-item level and the
operation level of `validateParametersExtension`; `locBase` is the location
path up to the index and `label` the human-readable context of the message. -/
def validateParamList (document : JsValue) (content : String)
    (ext : CustomExtension) (locBase : String) (label : String) :
    List JsValue → Nat → Except JsError (List ValidationError)
  | [], _ => .ok []
  | param :: rest, index => do
      let has ← hasExtension document ext.name (some param)
      let location := findExtensionLocation content
        (locBase ++ toString index ++ "/" ++ ext.name)
      let here ←
        if !has then
          pure [mkError ("Missing required custom extension: " ++ ext.name ++
            " in " ++ label ++ " parameters[" ++ toString index ++ "]") location ext.name]
        else do
          let value ← getProp param ext.name
          if !(validateExtensionType value ext.type) then
            pure [mkError ("Extension " ++ ext.name ++ " in " ++ label ++
              " parameters[" ++ toString index ++ "] should be of type " ++ ext.type ++
              ", got " ++ jsTypeof value) location ext.name]
          else
            pure []
      let more ← validateParamList document content ext locBase label rest (index + 1)
      pure (here ++ more)

/-- The eight HTTP operation keys checked at the operation level. -/
def operationMethods : List String :=
  ["get", "post", "put", "delete", "options", "head", "patch", "trace"]

/-- The operation-level loop of `validateParametersExtension`: the property
read on the path item is unguarded in the source, so a null path item makes
it throw. -/
def validateOpsParams (document : JsValue) (content : String)
    (ext : CustomExtension) (pathItem : JsValue) (pathKey : String) :
    List String → Except JsError (List ValidationError)
  | [] => .ok []
  | method :: rest => do
      let operation ← getProp pathItem method
      let here ←
        if truthy operation then do
          let ps ← getProp operation "parameters"
          if truthy ps then
            match ps with
            | .arr xs =>
                validateParamList document content ext
                  ("paths/" ++ pathKey ++ "/" ++ method ++ "/parameters/")
                  (pathKey ++ "." ++ method) xs 0
            | _ => .error .typeError
          else
            pure []
        else
          pure []
      let more ← validateOpsParams document content ext pathItem pathKey rest
      pure (here ++ more)

/-- Per-path-key body of `validateParametersExtension`: the guarded
path-item-level `parameters` walk, then the operation-level walk.  The `in`
operator of the guard throws on primitive path items, and `forEach` on a
truthy non-array `parameters` value throws. -/
def validateParamsForPathKey (document : JsValue) (content : String)
    (ext : CustomExtension) (pathsV : JsValue) (pathKey : String) :
    Except JsError (List ValidationError) := do
  let pathItem ← getProp pathsV pathKey
  let first ←
    if truthy pathItem then do
      let hasP ← jsIn "parameters" pathItem
      if hasP then do
        let ps ← getProp pathItem "parameters"
        if truthy ps then
          match ps with
          | .arr xs =>
              validateParamList document content ext
                ("paths/" ++ pathKey ++ "/parameters/") pathKey xs 0
          | _ => .error .typeError
        else
          pure []
      else
        pure []
    else
      pure []
  let second ← validateOpsParams document content ext pathItem pathKey operationMethods
  pure (first ++ second)

/-- Iteration over `Object.keys(document.paths)`. -/
def validateParamsPaths (document : JsValue) (content : String)
    (ext : CustomExtension) (pathsV : JsValue) :
    List String → Except JsError (List ValidationError)
  | [] => .ok []
  | k :: ks => do
      let here ← validateParamsForPathKey document content ext pathsV k
      let more ← validateParamsPaths document content ext pathsV ks
      pure (here ++ more)

/-- `validateParametersExtension` of the source. -/
def validateParametersExtension (document : JsValue) (content : String)
    (ext : CustomExtension) : Except JsError (List ValidationError) := do
  let pathsV ← getProp document "paths"
  if truthy pathsV then
    validateParamsPaths document content ext pathsV (objKeys pathsV)
  else
    pure []

/-- The three body-bearing methods of `validateRequestBodyExtension`. -/
def bodyMethods : List String := ["post", "put", "patch"]

/-- The method loop of `validateRequestBodyExtension`; the property read on
the path item is unguarded, so a null path item makes it throw. -/
def validateRequestBodyOps (document : JsValue) (content : String)
    (ext : CustomExtension) (pathItem : JsValue) (pathKey : String) :
    List String → Except JsError (List ValidationError)
  | [] => .ok []
  | method :: rest => do
      let operation ← getProp pathItem method
      let here ←
        if truthy operation then do
          let rb ← getProp operation "requestBody"
          if truthy rb then do
            let has ← hasExtension document ext.name (some rb)
            let location := findExtensionLocation content
              ("paths/" ++ pathKey ++ "/" ++ method ++ "/requestBody/" ++ ext.name)
            if !has then
              pure [mkError ("Missing required custom extension: " ++ ext.name ++
                " in " ++ pathKey ++ "." ++ method ++ " requestBody") location ext.name]
            else do
              let value ← getProp rb ext.name
              if !(validateExtensionType value ext.type) then
                pure [mkError ("Extension " ++ ext.name ++ " in " ++ pathKey ++ "." ++
                  method ++ " requestBody should be of type " ++ ext.type ++
                  ", got " ++ jsTypeof value) location ext.name]
              else
                pure []
          else
            pure []
        else
          pure []
      let more ← validateRequestBodyOps document content ext pathItem pathKey rest
      pure (here ++ more)

/-- Iteration over path keys for `validateRequestBodyExtension`. -/
def validateRequestBodyPaths (document : JsValue) (content : String)
    (ext : CustomExtension) (pathsV : JsValue) :
    List String → Except JsError (List ValidationError)
  | [] => .ok []
  | k :: ks => do
      let pathItem ← getProp pathsV k
      let here ← validateRequestBodyOps document content ext pathItem k bodyMethods
      let more ← validateRequestBodyPaths document content ext pathsV ks
      pure (here ++ more)

/-- `validateRequestBodyExtension` of the source. -/
def validateRequestBodyExtension (document : JsValue) (content : String)
    (ext : CustomExtension) : Except JsError (List ValidationError) := do
  let pathsV ← getProp document "paths"
  if truthy pathsV then
    validateRequestBodyPaths document content ext pathsV (objKeys pathsV)
  else
    pure []

/-- `validateExtensionInSection` of the source: dispatch on the rule location. -/
def validateExtensionInSection (document : JsValue) (content : String)
    (ext : CustomExtension) : Except JsError (List ValidationError) :=
  match ext.locIn with
  | .Root => validateRootExtension document content ext
  | .Servers => validateServersExtension document content ext
  | .Tags => validateTagsExtension document content ext
  | .Parameters => validateParametersExtension document content ext
  | .RequestBody => validateRequestBodyExtension document content ext

/-- The findings one rule contributes inside the rule loop of
`validateDocument`: rules whose `required` field is the boolean `false` are
skipped entirely. -/
def ruleFindings (document : JsValue) (content : String)
    (ext : CustomExtension) : Except JsError (List ValidationError) :=
  if ext.required = some (Sum.inl false) then .ok []
  else validateExtensionInSection document content ext

/-- The rule loop of `validateDocument`, pushing each rule contribution in
declaration order. -/
def extensionErrors (document : JsValue) (content : String) :
    List CustomExtension → Except JsError (List ValidationError)
  | [] => .ok []
  | ext :: rest => do
      let here ← ruleFindings document content ext
      let more ← extensionErrors document content rest
      pure (here ++ more)

/-- The finding built from one `ajv` schema error. -/
def mkSchemaFinding (content : String) (err : AjvError) : ValidationError :=
  mkError ("Schema validation error: Property \"" ++
      (match err.additionalProperty with | some p => p | none => "undefined") ++
      "\" is not allowed at " ++
      (if err.instancePath == "" then "/" else err.instancePath))
    (findExtensionLocation content err.instancePath) "schema-validation"

/-- `validateDocument` of the source.  The external `yaml` parser and `ajv`
checker are supplied as parameters: `parseResult` is the outcome of
`YAML.parse(content)` (the catch branch receives the stringified exception)
and `schemaErrors` is the error list `ajv` reports for the parsed document.
A `TypeError` raised by the rule checks escapes the function, exactly as in
the source, where only the parse call sits inside a try/catch. -/
def validateDocument (content : String) (parseResult : Except String JsValue)
    (schemaErrors : JsValue → List AjvError)
    (customExtensions : List CustomExtension) : Except JsError ValidationResult :=
  match parseResult with
  | .error parseError =>
      .ok { isValid := false
            errors := [{ message := "Failed to parse YAML: " ++ parseError
                         line := none
                         column := none
                         extensionName := "parse-error"
                         severity := "error" }]
            warnings := [] }
  | .ok document => do
      let schemaFindings := (schemaErrors document).map (mkSchemaFinding content)
      let extFindings ← extensionErrors document content customExtensions
      let errors := schemaFindings ++ extFindings
      .ok { isValid := errors.length == 0
            errors := errors
            warnings := [] }

/-!
A second formulation of the scanner as an explicit state machine over
1-based line numbers.  `lineOutcome` processes one line: every line whose
trimmed text starts the sequence-item marker bumps the running index, at any
indentation; a completed path returns a position (column indentation + 3 for
an index match, indentation + 1 for a key match); the index is reset to -1
on every line whose `getIndentation` is 0 (blank lines included).  This is
the reference rendering used to state the corrected sequence-handling claim,
and the workhorse for the inductive proofs about `findYamlLocation`.
-/

/-- The scanner state: matched path segments and the running array index. -/
structure ScanState where
  depth : Nat
  arrayIndex : Int
deriving DecidableEq, Repr

/-- Outcome of scanning one line. -/
inductive ScanStep where
  | found : YamlPos → ScanStep
  | cont : ScanState → ScanStep
deriving DecidableEq, Repr

/-- Process a single line at 1-based line number `n`. -/
def lineOutcome (pathParts : List String) (n : Nat) (line : List Char)
    (st : ScanState) : ScanStep :=
  let trimmed := trimChars line
  let isItem := startsDash trimmed
  let ai := if isItem then st.arrayIndex + 1 else st.arrayIndex
  let hit1 := isItem && (pathParts.get? st.depth == some (toString ai))
  let depth1 := if hit1 then st.depth + 1 else st.depth
  if hit1 && (depth1 == pathParts.length) then
    .found ⟨n, getIndentation line + 3⟩
  else
    let keyHit :=
      match matchKeyLine trimmed with
      | some k => pathParts.get? depth1 == some k
      | none => false
    let depth2 := if keyHit then depth1 + 1 else depth1
    if keyHit && (depth2 == pathParts.length) then
      .found ⟨n, getIndentation line + 1⟩
    else
      .cont ⟨depth2, if getIndentation line == 0 then -1 else ai⟩

/-- Run the state machine over the remaining lines. -/
def runScan (pathParts : List String) :
    List (List Char) → Nat → ScanState → Option YamlPos
  | [], _, _ => none
  | line :: rest, n, st =>
      match lineOutcome pathParts n line st with
      | .found p => some p
      | .cont st2 => runScan pathParts rest (n + 1) st2

/-- The scanner restated through the state machine. -/
def findYamlLocationAmended (content : String) (extensionPath : String) :
    Option YamlPos :=
  runScan (pathPartsOf extensionPath) (splitLines content) 1 ⟨0, -1⟩

/-- One scanning step equals one loop iteration of the source scanner. -/
theorem scanLines_cons (pathParts : List String) (line : List Char)
    (rest : List (List Char)) (i depth : Nat) (arrayIndex : Int) :
    scanLines pathParts (line :: rest) i depth arrayIndex =
      match lineOutcome pathParts (i + 1) line ⟨depth, arrayIndex⟩ with
      | .found p => some p
      | .cont st => scanLines pathParts rest (i + 1) st.depth st.arrayIndex := by
  simp only [scanLines, lineOutcome]
  repeat' split
  all_goals simp_all
  all_goals (rename_i heq2; rw [← heq2])

/-- The two scanner formulations agree from any aligned intermediate state. -/
theorem runScan_eq_scanLines (pathParts : List String) :
    ∀ (ls : List (List Char)) (i depth : Nat) (arrayIndex : Int),
      runScan pathParts ls (i + 1) ⟨depth, arrayIndex⟩ =
        scanLines pathParts ls i depth arrayIndex := by
  intro ls
  induction ls with
  | nil => intro i depth arrayIndex; rfl
  | cons line rest ih =>
      intro i depth arrayIndex
      rw [scanLines_cons, runScan]
      cases lineOutcome pathParts (i + 1) line ⟨depth, arrayIndex⟩ with
      | found p => rfl
      | cont st => exact ih (i + 1) st.depth st.arrayIndex

/-!
A rendering of the sequence-handling algorithm exactly as the specification
words it for the corrected claim about sequence items: the running index is
incremented only for item lines "at the indentation matching the current
path position", read as the indentation of the first item counted since the
scan last moved to a new path position.  It is used solely to witness that
the source scanner does not implement this algorithm.
-/

/-- Scanner state for the specification-worded sequence handling: the extra
`itemIndent` remembers the indentation at which items of the sequence
currently being indexed appear. -/
structure ClaimScanState where
  depth : Nat
  arrayIndex : Int
  itemIndent : Option Nat
deriving DecidableEq, Repr

/-- One line of the specification-worded scan. -/
def claimLineOutcome (pathParts : List String) (n : Nat) (line : List Char)
    (st : ClaimScanState) : Sum YamlPos ClaimScanState :=
  let trimmed := trimChars line
  let indent := getIndentation line
  let isItem := startsDash trimmed
  let counted := isItem &&
    (match st.itemIndent with
     | none => true
     | some ind => ind == indent)
  let ai := if counted then st.arrayIndex + 1 else st.arrayIndex
  let ii := if counted && st.itemIndent == none then some indent else st.itemIndent
  let hit1 := counted && (pathParts.get? st.depth == some (toString ai))
  let depth1 := if hit1 then st.depth + 1 else st.depth
  if hit1 && (depth1 == pathParts.length) then
    .inl ⟨n, indent + 3⟩
  else
    let keyHit :=
      match matchKeyLine trimmed with
      | some k => pathParts.get? depth1 == some k
      | none => false
    let depth2 := if keyHit then depth1 + 1 else depth1
    if keyHit && (depth2 == pathParts.length) then
      .inl ⟨n, indent + 1⟩
    else
      let advanced := !(depth2 == st.depth)
      .inr { depth := depth2
             arrayIndex := if indent == 0 then -1 else ai
             itemIndent := if indent == 0 || advanced then none else ii }

/-- Run the specification-worded scan. -/
def claimRunScan (pathParts : List String) :
    List (List Char) → Nat → ClaimScanState → Option YamlPos
  | [], _, _ => none
  | line :: rest, n, st =>
      match claimLineOutcome pathParts n line st with
      | .inl p => some p
      | .inr st2 => claimRunScan pathParts rest (n + 1) st2

/-- The location scan as the specification describes sequence handling. -/
def findYamlLocationClaimed (content : String) (extensionPath : String) :
    Option YamlPos :=
  claimRunScan (pathPartsOf extensionPath) (splitLines content) 1 ⟨0, -1, none⟩

/-- Total variant of `hasOwnProperty` for receivers that are not
`null`/`undefined` (where the JavaScript call cannot throw). -/
def hasOwnPure : JsValue → String → Bool
  | .obj fs, key => hasField fs key
  | .arr xs, key => key == "length" || (stringIndex key xs.length).isSome
  | .str s, key => key == "length" || (stringIndex key s.length).isSome
  | _, _ => false

/-- Total variant of property read for receivers that are not
`null`/`undefined`. -/
def getPropPure : JsValue → String → JsValue
  | .obj fs, key => (lookupField fs key).getD .undefV
  | .arr xs, key =>
      if key == "length" then .num (Int.ofNat xs.length)
      else match stringIndex key xs.length with
           | some i => xs.getD i .undefV
           | none => .undefV
  | .str s, key =>
      if key == "length" then .num (Int.ofNat s.length)
      else match stringIndex key s.length with
           | some i => .str (String.mk [s.data.getD i ' '])
           | none => .undefV
  | _, _ => .undefV

/-- The findings the servers walk is specified to emit for one entry: one
missing error when the entry lacks the field, one type-mismatch error when
it carries it with the wrong type, nothing otherwise. -/
def expectedServerEntry (content : String) (ext : CustomExtension)
    (index : Nat) (entry : JsValue) : List ValidationError :=
  let location := findYamlLocation content
    ("servers/" ++ toString index ++ "/" ++ ext.name)
  if hasOwnPure entry ext.name then
    if validateExtensionType (getPropPure entry ext.name) ext.type then []
    else
      [mkError ("Extension " ++ ext.name ++ " in servers[" ++ toString index ++
        "] should be of type " ++ ext.type ++ ", got " ++
        jsTypeof (getPropPure entry ext.name)) location ext.name]
  else
    [mkError ("Missing required custom extension: " ++ ext.name ++
      " in servers[" ++ toString index ++ "]") location ext.name]

/-- Per-entry findings over a whole servers list, from a starting index. -/
def expectedServersFindings (content : String) (ext : CustomExtension) :
    List JsValue → Nat → List ValidationError
  | [], _ => []
  | e :: rest, index =>
      expectedServerEntry content ext index e ++
        expectedServersFindings content ext rest (index + 1)

/-- Decomposition of a successful `Except` bind. -/
theorem bind_eq_ok {α β : Type} {x : Except JsError α} {f : α → Except JsError β}
    {b : β} : x >>= f = Except.ok b ↔ ∃ a, x = Except.ok a ∧ f a = Except.ok b := by
  cases x with
  | error e =>
      constructor
      · intro h; exact absurd h (by simp [Bind.bind, Except.bind])
      · rintro ⟨a, ha, -⟩; cases ha
  | ok a =>
      constructor
      · intro h; exact ⟨a, rfl, h⟩
      · rintro ⟨a2, ha, hf⟩; cases ha; exact hf

/-- Skipped rules contribute nothing: filtering them out of the rule list
leaves the extension error computation unchanged. -/
theorem extensionErrors_filter_required (document : JsValue) (content : String) :
    ∀ rules : List CustomExtension,
      extensionErrors document content rules =
        extensionErrors document content
          (rules.filter fun r => !decide (r.required = some (Sum.inl false))) := by
  intro rules
  induction rules with
  | nil => rfl
  | cons r rest ih =>
      by_cases hr : r.required = some (Sum.inl false)
      · have hf : (r :: rest).filter
            (fun r => !decide (r.required = some (Sum.inl false))) =
            rest.filter (fun r => !decide (r.required = some (Sum.inl false))) := by
          simp [List.filter_cons, hr]
        rw [hf, ← ih]
        show (do
          let here ← ruleFindings document content r
          let more ← extensionErrors document content rest
          pure (here ++ more)) = extensionErrors document content rest
        rw [ruleFindings, if_pos hr]
        cases hrest : extensionErrors document content rest with
        | error e => simp [Bind.bind, Except.bind]
        | ok l => simp [Bind.bind, Except.bind, Pure.pure, Except.pure]
      · have hf : (r :: rest).filter
            (fun r => !decide (r.required = some (Sum.inl false))) =
            r :: rest.filter (fun r => !decide (r.required = some (Sum.inl false))) := by
          simp [List.filter_cons, hr]
        rw [hf]
        show (do
          let here ← ruleFindings document content r
          let more ← extensionErrors document content rest
          pure (here ++ more)) = (do
          let here ← ruleFindings document content r
          let more ← extensionErrors document content
            (rest.filter fun r => !decide (r.required = some (Sum.inl false)))
          pure (here ++ more))
        rw [← ih]

/-- C1: the specification says `validateDocument` never raises past its
public contract — in particular an input that parses to `null` (for example
the empty document) must still yield a `ValidationResult`.  The code
violates this: with a parsed document `null` and one required root rule, the
presence check calls `hasOwnProperty` on `null` and a `TypeError` escapes
`validateDocument`.  This theorem evaluates the embedded code at that
failing input. -/
theorem C1_null_document_throws :
    validateDocument "" (Except.ok JsValue.nullV) (fun _ => [])
      [{ locIn := .Root, name := "x-required", type := "string" }] =
      Except.error JsError.typeError := by
  rfl

/-- C2 counterexample: a rule with `required := false` whose extension is
present with the wrong type (declared string, actual number) produces no
finding at all — the result is valid and empty — although the claim demands
a type-mismatch error finding. -/
theorem C2_counterexample :
    validateDocument "x-a: 3" (Except.ok (JsValue.obj [("x-a", JsValue.num 3)]))
      (fun _ => [])
      [{ locIn := .Root, name := "x-a", type := "string",
         required := some (Sum.inl false) }] =
      Except.ok { isValid := true, errors := [], warnings := [] } := by
  rfl

/-- C2 amended: a rule whose `required` field is `false` is skipped
entirely by the rule loop — it is never evaluated, so neither its absence
nor its presence with a wrong type produces any finding; the result equals
validation with every such rule removed from the list. -/
theorem C2_amended (content : String) (parseResult : Except String JsValue)
    (schemaErrors : JsValue → List AjvError) (rules : List CustomExtension) :
    validateDocument content parseResult schemaErrors rules =
      validateDocument content parseResult schemaErrors
        (rules.filter fun r => !decide (r.required = some (Sum.inl false))) := by
  cases parseResult with
  | error e => rfl
  | ok document =>
      show (extensionErrors document content rules >>= fun _ => _) = _
      rw [extensionErrors_filter_required document content rules]
      rfl

/-- C3: whenever the parser rejects the input, `validateDocument` returns
`isValid = false` with exactly one finding of severity `error` named
`parse-error`, carrying no line or column, an empty warnings list, and no
schema or extension findings. -/
theorem C3_parse_error_result (content : String) (parseError : String)
    (schemaErrors : JsValue → List AjvError) (rules : List CustomExtension) :
    validateDocument content (Except.error parseError) schemaErrors rules =
      Except.ok
        { isValid := false
          errors := [{ message := "Failed to parse YAML: " ++ parseError
                       line := none
                       column := none
                       extensionName := "parse-error"
                       severity := "error" }]
          warnings := [] } := by
  rfl

/-- The result record assembled by `validateDocument` from the schema
findings and the extension findings. -/
def mkResult (schemaFindings extFindings : List ValidationError) : ValidationResult :=
  { isValid := (schemaFindings ++ extFindings).length == 0
    errors := schemaFindings ++ extFindings
    warnings := [] }

/-- When the rule loop succeeds, `validateDocument` assembles the result
record from the schema findings followed by the extension findings. -/
theorem validateDocument_ok_shape (content : String) (document : JsValue)
    (schemaErrors : JsValue → List AjvError) (rules : List CustomExtension)
    (l : List ValidationError)
    (hex : extensionErrors document content rules = Except.ok l) :
    validateDocument content (Except.ok document) schemaErrors rules =
      Except.ok (mkResult ((schemaErrors document).map (mkSchemaFinding content)) l) := by
  have step : validateDocument content (Except.ok document) schemaErrors rules =
      extensionErrors document content rules >>= (fun extFindings => Except.ok (mkResult ((schemaErrors document).map (mkSchemaFinding content)) extFindings)) := rfl
  rw [step, hex]
  rfl

/-- When the rule loop throws, the exception escapes `validateDocument`. -/
theorem validateDocument_error_shape (content : String) (document : JsValue)
    (schemaErrors : JsValue → List AjvError) (rules : List CustomExtension)
    (e : JsError)
    (hex : extensionErrors document content rules = Except.error e) :
    validateDocument content (Except.ok document) schemaErrors rules =
      Except.error e := by
  have step : validateDocument content (Except.ok document) schemaErrors rules =
      extensionErrors document content rules >>= (fun extFindings => Except.ok (mkResult ((schemaErrors document).map (mkSchemaFinding content)) extFindings)) := rfl
  rw [step, hex]
  rfl

/-- C4: every `ValidationResult` the validator returns satisfies
`isValid = (errors.length == 0)`; warnings are not consulted. -/
theorem C4_isValid_iff_no_errors (content : String)
    (parseResult : Except String JsValue)
    (schemaErrors : JsValue → List AjvError) (rules : List CustomExtension)
    (res : ValidationResult)
    (h : validateDocument content parseResult schemaErrors rules = Except.ok res) :
    res.isValid = (res.errors.length == 0) := by
  cases parseResult with
  | error e =>
      unfold validateDocument at h
      injection h with h3
      subst h3
      rfl
  | ok document =>
      cases hex : extensionErrors document content rules with
      | error e2 =>
          rw [validateDocument_error_shape content document schemaErrors rules e2 hex]
            at h
          exact Except.noConfusion h
      | ok l =>
          rw [validateDocument_ok_shape content document schemaErrors rules l hex]
            at h
          injection h with h3
          subst h3
          rfl

/-- C4 witness: at a concrete valid call the equation holds. -/
theorem C4_isValid_iff_no_errors_witness :
    (ValidationResult.mk true [] []).isValid =
      ((ValidationResult.mk true [] []).errors.length == 0) :=
  C4_isValid_iff_no_errors "a: 1" (Except.ok (JsValue.obj [("a", JsValue.num 1)]))
    (fun _ => []) [] (ValidationResult.mk true [] []) (by rfl)

/-- Unfolding of the rule loop on a cons cell. -/
theorem extensionErrors_cons (document : JsValue) (content : String)
    (r : CustomExtension) (rest : List CustomExtension) :
    extensionErrors document content (r :: rest) =
      (ruleFindings document content r >>= fun here =>
        extensionErrors document content rest >>= fun more =>
          pure (here ++ more)) := rfl

/-- The rule loop on the empty list reports nothing. -/
theorem extensionErrors_nil (document : JsValue) (content : String) :
    extensionErrors document content [] = Except.ok [] := rfl

/-- `pure` on `Except` is `Except.ok`. -/
theorem pure_eq_ok {α : Type} (a : α) : (pure a : Except JsError α) = Except.ok a := rfl

/-- A successful run over `rules ++ [r]` decomposes into a successful run
over `rules` followed by the findings of `r`. -/
theorem extensionErrors_append_one_ok (document : JsValue) (content : String)
    (r : CustomExtension) :
    ∀ (rules : List CustomExtension) (L : List ValidationError),
      extensionErrors document content (rules ++ [r]) = Except.ok L →
      ∃ l fs, extensionErrors document content rules = Except.ok l ∧
        ruleFindings document content r = Except.ok fs ∧ L = l ++ fs := by
  intro rules
  induction rules with
  | nil =>
      intro L h
      rw [List.nil_append, extensionErrors_cons, bind_eq_ok] at h
      obtain ⟨fs, h1, h2⟩ := h
      rw [extensionErrors_nil, bind_eq_ok] at h2
      obtain ⟨m, hm, h3⟩ := h2
      injection hm with hm2
      subst hm2
      rw [pure_eq_ok] at h3
      injection h3 with h4
      exact ⟨[], fs, rfl, h1, by rw [← h4, List.append_nil, List.nil_append]⟩
  | cons r2 rest ih =>
      intro L h
      rw [List.cons_append, extensionErrors_cons, bind_eq_ok] at h
      obtain ⟨here, h1, h2⟩ := h
      rw [bind_eq_ok] at h2
      obtain ⟨M, h3, h4⟩ := h2
      rw [pure_eq_ok] at h4
      injection h4 with h5
      obtain ⟨l2, fs, hrest, hr, hM⟩ := ih M h3
      refine ⟨here ++ l2, fs, ?_, hr, ?_⟩
      · rw [extensionErrors_cons, h1, hrest]
        rfl
      · rw [← h5, hM, List.append_assoc]

/-- Removing one rule from a successful run keeps a successful run whose
findings form a sublist of the original findings. -/
theorem extensionErrors_remove_ok (document : JsValue) (content : String)
    (r : CustomExtension) (post : List CustomExtension) :
    ∀ (pre : List CustomExtension) (L : List ValidationError),
      extensionErrors document content (pre ++ r :: post) = Except.ok L →
      ∃ M, extensionErrors document content (pre ++ post) = Except.ok M ∧
        M.Sublist L := by
  intro pre
  induction pre with
  | nil =>
      intro L h
      rw [List.nil_append, extensionErrors_cons, bind_eq_ok] at h
      obtain ⟨f, h1, h2⟩ := h
      rw [bind_eq_ok] at h2
      obtain ⟨M, h3, h4⟩ := h2
      rw [pure_eq_ok] at h4
      injection h4 with h5
      exact ⟨M, by rw [List.nil_append]; exact h3, h5 ▸ List.sublist_append_right f M⟩
  | cons e pre2 ih =>
      intro L h
      rw [List.cons_append, extensionErrors_cons, bind_eq_ok] at h
      obtain ⟨f, h1, h2⟩ := h
      rw [bind_eq_ok] at h2
      obtain ⟨M, h3, h4⟩ := h2
      rw [pure_eq_ok] at h4
      injection h4 with h5
      obtain ⟨M2, h6, h7⟩ := ih M h3
      refine ⟨f ++ M2, ?_, ?_⟩
      · rw [List.cons_append, extensionErrors_cons, h1, h6]
        rfl
      · rw [← h5]
        exact h7.append_left f

/-- C9 counterexample: on a document that parses to `null`, validation with
no rules returns a result, but appending one root rule makes the call throw
a `TypeError` instead of returning a `ValidationResult` with more findings. -/
theorem C9_counterexample :
    validateDocument "~" (Except.ok JsValue.nullV) (fun _ => []) [] =
      Except.ok { isValid := true, errors := [], warnings := [] } ∧
    validateDocument "~" (Except.ok JsValue.nullV) (fun _ => [])
      ([] ++ [{ locIn := .Root, name := "x-a", type := "string" }]) =
      Except.error JsError.typeError := ⟨rfl, rfl⟩

/-- C9 amended: whenever the call with the appended rule does return a
result (it can instead throw, see the null-document `TypeError`), its error
findings are exactly those of the call without the rule followed by the new
rule's findings; and from a non-throwing call, removing any one rule keeps a
non-throwing call whose findings form a sublist of the original ones. -/
theorem C9_amended :
    (∀ (content : String) (parseResult : Except String JsValue)
       (schemaErrors : JsValue → List AjvError) (rules : List CustomExtension)
       (r : CustomExtension) (res2 : ValidationResult),
       validateDocument content parseResult schemaErrors (rules ++ [r]) =
         Except.ok res2 →
       ∃ res1, validateDocument content parseResult schemaErrors rules =
           Except.ok res1 ∧ ∃ t, res2.errors = res1.errors ++ t) ∧
    (∀ (content : String) (parseResult : Except String JsValue)
       (schemaErrors : JsValue → List AjvError) (pre post : List CustomExtension)
       (r : CustomExtension) (res2 : ValidationResult),
       validateDocument content parseResult schemaErrors (pre ++ r :: post) =
         Except.ok res2 →
       ∃ res1, validateDocument content parseResult schemaErrors (pre ++ post) =
           Except.ok res1 ∧ res1.errors.Sublist res2.errors) := by
  constructor
  · intro content parseResult schemaErrors rules r res2 h
    cases parseResult with
    | error e =>
        unfold validateDocument at h
        injection h with h2
        subst h2
        exact ⟨_, rfl, [], (List.append_nil _).symm⟩
    | ok document =>
        cases hex : extensionErrors document content (rules ++ [r]) with
        | error e2 =>
            rw [validateDocument_error_shape content document schemaErrors _ e2 hex]
              at h
            exact Except.noConfusion h
        | ok L =>
            rw [validateDocument_ok_shape content document schemaErrors _ L hex] at h
            injection h with h2
            subst h2
            obtain ⟨l, fs, hrules, -, hL⟩ :=
              extensionErrors_append_one_ok document content r rules L hex
            refine ⟨mkResult ((schemaErrors document).map (mkSchemaFinding content)) l,
              validateDocument_ok_shape content document schemaErrors rules l hrules,
              fs, ?_⟩
            show (schemaErrors document).map (mkSchemaFinding content) ++ L =
              ((schemaErrors document).map (mkSchemaFinding content) ++ l) ++ fs
            rw [hL, List.append_assoc]
  · intro content parseResult schemaErrors pre post r res2 h
    cases parseResult with
    | error e =>
        unfold validateDocument at h
        injection h with h2
        subst h2
        exact ⟨_, rfl, List.Sublist.refl _⟩
    | ok document =>
        cases hex : extensionErrors document content (pre ++ r :: post) with
        | error e2 =>
            rw [validateDocument_error_shape content document schemaErrors _ e2 hex]
              at h
            exact Except.noConfusion h
        | ok L =>
            rw [validateDocument_ok_shape content document schemaErrors _ L hex] at h
            injection h with h2
            subst h2
            obtain ⟨M, hM, hsub⟩ :=
              extensionErrors_remove_ok document content r post pre L hex
            refine ⟨mkResult ((schemaErrors document).map (mkSchemaFinding content)) M,
              validateDocument_ok_shape content document schemaErrors _ M hM, ?_⟩
            show ((schemaErrors document).map (mkSchemaFinding content) ++ M).Sublist
              ((schemaErrors document).map (mkSchemaFinding content) ++ L)
            exact hsub.append_left _

/-- C9 witness: at a concrete call, appending a missing-extension rule to
the empty rule list extends the findings by its missing error. -/
theorem C9_amended_witness :
    ∃ res1, validateDocument "a: 1" (Except.ok (JsValue.obj [("a", JsValue.num 1)]))
        (fun _ => []) [] = Except.ok res1 ∧
      ∃ t, (ValidationResult.mk false
          [{ message := "Missing required custom extension: x-a"
             line := none
             column := none
             extensionName := "x-a"
             severity := "error" }] []).errors = res1.errors ++ t :=
  C9_amended.1 "a: 1" (Except.ok (JsValue.obj [("a", JsValue.num 1)])) (fun _ => [])
    [] { locIn := .Root, name := "x-a", type := "string" } _ (by rfl)

/-- Every finding in the list has severity `error`. -/
def sevOk (l : List ValidationError) : Prop := ∀ e ∈ l, e.severity = "error"

theorem sevOk_nil : sevOk [] := by
  intro e he
  cases he

theorem sevOk_append {a b : List ValidationError} (ha : sevOk a) (hb : sevOk b) :
    sevOk (a ++ b) := by
  intro e he
  rcases List.mem_append.1 he with h | h
  · exact ha e h
  · exact hb e h

theorem sevOk_mkError (m : String) (loc : Option YamlPos) (n : String) :
    sevOk [mkError m loc n] := by
  intro e he
  rw [List.mem_singleton] at he
  subst he
  rfl

/-- Decomposition of one entry step of the per-entry walks: a fixed first
contribution, then the recursive call, then their concatenation. -/
theorem entryStep_ok {first l : List ValidationError}
    {rec : Except JsError (List ValidationError)}
    (h : (do
      let y ← (pure first : Except JsError (List ValidationError))
      let more ← rec
      pure (y ++ more)) = Except.ok l) :
    ∃ more, rec = Except.ok more ∧ l = first ++ more := by
  rw [bind_eq_ok] at h
  obtain ⟨y, hy, h⟩ := h
  rw [pure_eq_ok] at hy
  injection hy with hy2
  subst hy2
  rw [bind_eq_ok] at h
  obtain ⟨more, hD, h⟩ := h
  rw [pure_eq_ok] at h
  injection h with h2
  exact ⟨more, hD, h2.symm⟩

theorem sevOk_root (document : JsValue) (content : String) (ext : CustomExtension)
    (l : List ValidationError)
    (h : validateRootExtension document content ext = Except.ok l) : sevOk l := by
  simp only [validateRootExtension] at h
  rw [bind_eq_ok] at h
  obtain ⟨has, -, h⟩ := h
  split at h
  · rw [pure_eq_ok] at h
    injection h with h2
    subst h2
    exact sevOk_mkError _ _ _
  · rw [bind_eq_ok] at h
    obtain ⟨value, -, h⟩ := h
    split at h
    · rw [pure_eq_ok] at h
      injection h with h2
      subst h2
      exact sevOk_mkError _ _ _
    · rw [pure_eq_ok] at h
      injection h with h2
      subst h2
      exact sevOk_nil

theorem sevOk_serversEntries (document : JsValue) (content : String)
    (ext : CustomExtension) :
    ∀ (entries : List JsValue) (index : Nat) (l : List ValidationError),
      validateServersEntries document content ext entries index = Except.ok l →
      sevOk l := by
  intro entries
  induction entries with
  | nil =>
      intro index l h
      injection h with h2
      subst h2
      exact sevOk_nil
  | cons s rest ih =>
      intro index l h
      simp only [validateServersEntries] at h
      rw [bind_eq_ok] at h
      obtain ⟨has, -, h⟩ := h
      split at h
      · obtain ⟨more, hD, h2⟩ := entryStep_ok h
        subst h2
        exact sevOk_append (sevOk_mkError _ _ _) (ih (index + 1) more hD)
      · rw [bind_eq_ok] at h
        obtain ⟨value, -, h⟩ := h
        split at h
        · obtain ⟨more, hD, h2⟩ := entryStep_ok h
          subst h2
          exact sevOk_append (sevOk_mkError _ _ _) (ih (index + 1) more hD)
        · obtain ⟨more, hD, h2⟩ := entryStep_ok h
          subst h2
          exact sevOk_append sevOk_nil (ih (index + 1) _ hD)

theorem sevOk_servers (document : JsValue) (content : String)
    (ext : CustomExtension) (l : List ValidationError)
    (h : validateServersExtension document content ext = Except.ok l) : sevOk l := by
  simp only [validateServersExtension] at h
  rw [bind_eq_ok] at h
  obtain ⟨serversV, -, h⟩ := h
  split at h
  · rw [pure_eq_ok] at h
    injection h with h2
    subst h2
    exact sevOk_nil
  · split at h
    · exact sevOk_serversEntries document content ext _ 0 l h
    · rw [pure_eq_ok] at h
      injection h with h2
      subst h2
      exact sevOk_nil

theorem sevOk_tagsEntries (document : JsValue) (content : String)
    (ext : CustomExtension) :
    ∀ (entries : List JsValue) (index : Nat) (l : List ValidationError),
      validateTagsEntries document content ext entries index = Except.ok l →
      sevOk l := by
  intro entries
  induction entries with
  | nil =>
      intro index l h
      injection h with h2
      subst h2
      exact sevOk_nil
  | cons s rest ih =>
      intro index l h
      simp only [validateTagsEntries] at h
      rw [bind_eq_ok] at h
      obtain ⟨has, -, h⟩ := h
      split at h
      · obtain ⟨more, hD, h2⟩ := entryStep_ok h
        subst h2
        exact sevOk_append (sevOk_mkError _ _ _) (ih (index + 1) more hD)
      · rw [bind_eq_ok] at h
        obtain ⟨value, -, h⟩ := h
        split at h
        · obtain ⟨more, hD, h2⟩ := entryStep_ok h
          subst h2
          exact sevOk_append (sevOk_mkError _ _ _) (ih (index + 1) more hD)
        · obtain ⟨more, hD, h2⟩ := entryStep_ok h
          subst h2
          exact sevOk_append sevOk_nil (ih (index + 1) _ hD)

theorem sevOk_tags (document : JsValue) (content : String)
    (ext : CustomExtension) (l : List ValidationError)
    (h : validateTagsExtension document content ext = Except.ok l) : sevOk l := by
  simp only [validateTagsExtension] at h
  rw [bind_eq_ok] at h
  obtain ⟨tagsV, -, h⟩ := h
  split at h
  · rw [pure_eq_ok] at h
    injection h with h2
    subst h2
    exact sevOk_nil
  · split at h
    · exact sevOk_tagsEntries document content ext _ 0 l h
    · rw [pure_eq_ok] at h
      injection h with h2
      subst h2
      exact sevOk_nil

theorem sevOk_paramList (document : JsValue) (content : String)
    (ext : CustomExtension) (locBase label : String) :
    ∀ (params : List JsValue) (index : Nat) (l : List ValidationError),
      validateParamList document content ext locBase label params index =
        Except.ok l → sevOk l := by
  intro params
  induction params with
  | nil =>
      intro index l h
      injection h with h2
      subst h2
      exact sevOk_nil
  | cons p rest ih =>
      intro index l h
      simp only [validateParamList] at h
      rw [bind_eq_ok] at h
      obtain ⟨has, -, h⟩ := h
      split at h
      · obtain ⟨more, hD, h2⟩ := entryStep_ok h
        subst h2
        exact sevOk_append (sevOk_mkError _ _ _) (ih (index + 1) more hD)
      · rw [bind_eq_ok] at h
        obtain ⟨value, -, h⟩ := h
        split at h
        · obtain ⟨more, hD, h2⟩ := entryStep_ok h
          subst h2
          exact sevOk_append (sevOk_mkError _ _ _) (ih (index + 1) more hD)
        · obtain ⟨more, hD, h2⟩ := entryStep_ok h
          subst h2
          exact sevOk_append sevOk_nil (ih (index + 1) _ hD)

/-- Decomposition of a chained step: an arbitrary first computation, then a
second one, then their concatenation. -/
theorem chainStep_ok {A rec : Except JsError (List ValidationError)}
    {l : List ValidationError}
    (h : (do
      let y ← A
      let more ← rec
      pure (y ++ more)) = Except.ok l) :
    ∃ y more, A = Except.ok y ∧ rec = Except.ok more ∧ l = y ++ more := by
  rw [bind_eq_ok] at h
  obtain ⟨y, hy, h⟩ := h
  rw [bind_eq_ok] at h
  obtain ⟨more, hD, h⟩ := h
  rw [pure_eq_ok] at h
  injection h with h2
  exact ⟨y, more, hy, hD, h2.symm⟩

theorem sevOk_opsParams (document : JsValue) (content : String)
    (ext : CustomExtension) (pathItem : JsValue) (pathKey : String) :
    ∀ (methods : List String) (l : List ValidationError),
      validateOpsParams document content ext pathItem pathKey methods =
        Except.ok l → sevOk l := by
  intro methods
  induction methods with
  | nil =>
      intro l h
      injection h with h2
      subst h2
      exact sevOk_nil
  | cons m rest ih =>
      intro l h
      simp only [validateOpsParams] at h
      rw [bind_eq_ok] at h
      obtain ⟨operation, -, h⟩ := h
      split at h
      · rw [bind_eq_ok] at h
        obtain ⟨ps, -, h⟩ := h
        split at h
        · split at h
          · obtain ⟨y, more, hA, hB, h2⟩ := chainStep_ok h
            subst h2
            exact sevOk_append (sevOk_paramList document content ext _ _ _ _ _ hA)
              (ih _ hB)
          · rw [bind_eq_ok] at h
            obtain ⟨y, hy, -⟩ := h
            exact Except.noConfusion hy
        · obtain ⟨more, hD, h2⟩ := entryStep_ok h
          subst h2
          exact sevOk_append sevOk_nil (ih _ hD)
      · obtain ⟨more, hD, h2⟩ := entryStep_ok h
        subst h2
        exact sevOk_append sevOk_nil (ih _ hD)

theorem sevOk_paramsForPathKey (document : JsValue) (content : String)
    (ext : CustomExtension) (pathsV : JsValue) (pathKey : String)
    (l : List ValidationError)
    (h : validateParamsForPathKey document content ext pathsV pathKey =
      Except.ok l) : sevOk l := by
  simp only [validateParamsForPathKey] at h
  rw [bind_eq_ok] at h
  obtain ⟨pathItem, -, h⟩ := h
  split at h
  · rw [bind_eq_ok] at h
    obtain ⟨hasP, -, h⟩ := h
    split at h
    · rw [bind_eq_ok] at h
      obtain ⟨ps, -, h⟩ := h
      split at h
      · split at h
        · obtain ⟨y, more, hA, hB, h2⟩ := chainStep_ok h
          subst h2
          exact sevOk_append (sevOk_paramList document content ext _ _ _ _ _ hA)
            (sevOk_opsParams document content ext _ _ _ _ hB)
        · rw [bind_eq_ok] at h
          obtain ⟨y, hy, -⟩ := h
          exact Except.noConfusion hy
      · obtain ⟨more, hD, h2⟩ := entryStep_ok h
        subst h2
        exact sevOk_append sevOk_nil (sevOk_opsParams document content ext _ _ _ _ hD)
    · obtain ⟨more, hD, h2⟩ := entryStep_ok h
      subst h2
      exact sevOk_append sevOk_nil (sevOk_opsParams document content ext _ _ _ _ hD)
  · obtain ⟨more, hD, h2⟩ := entryStep_ok h
    subst h2
    exact sevOk_append sevOk_nil (sevOk_opsParams document content ext _ _ _ _ hD)

theorem sevOk_paramsPaths (document : JsValue) (content : String)
    (ext : CustomExtension) (pathsV : JsValue) :
    ∀ (ks : List String) (l : List ValidationError),
      validateParamsPaths document content ext pathsV ks = Except.ok l →
      sevOk l := by
  intro ks
  induction ks with
  | nil =>
      intro l h
      injection h with h2
      subst h2
      exact sevOk_nil
  | cons k rest ih =>
      intro l h
      simp only [validateParamsPaths] at h
      obtain ⟨y, more, hA, hB, h2⟩ := chainStep_ok h
      subst h2
      exact sevOk_append (sevOk_paramsForPathKey document content ext pathsV k y hA)
        (ih _ hB)

theorem sevOk_parameters (document : JsValue) (content : String)
    (ext : CustomExtension) (l : List ValidationError)
    (h : validateParametersExtension document content ext = Except.ok l) :
    sevOk l := by
  simp only [validateParametersExtension] at h
  rw [bind_eq_ok] at h
  obtain ⟨pathsV, -, h⟩ := h
  split at h
  · exact sevOk_paramsPaths document content ext pathsV _ l h
  · rw [pure_eq_ok] at h
    injection h with h2
    subst h2
    exact sevOk_nil

theorem sevOk_requestBodyOps (document : JsValue) (content : String)
    (ext : CustomExtension) (pathItem : JsValue) (pathKey : String) :
    ∀ (methods : List String) (l : List ValidationError),
      validateRequestBodyOps document content ext pathItem pathKey methods =
        Except.ok l → sevOk l := by
  intro methods
  induction methods with
  | nil =>
      intro l h
      injection h with h2
      subst h2
      exact sevOk_nil
  | cons m rest ih =>
      intro l h
      simp only [validateRequestBodyOps] at h
      rw [bind_eq_ok] at h
      obtain ⟨operation, -, h⟩ := h
      split at h
      · rw [bind_eq_ok] at h
        obtain ⟨rb, -, h⟩ := h
        split at h
        · rw [bind_eq_ok] at h
          obtain ⟨has, -, h⟩ := h
          split at h
          · obtain ⟨more, hD, h2⟩ := entryStep_ok h
            subst h2
            exact sevOk_append (sevOk_mkError _ _ _) (ih _ hD)
          · rw [bind_eq_ok] at h
            obtain ⟨value, -, h⟩ := h
            split at h
            · obtain ⟨more, hD, h2⟩ := entryStep_ok h
              subst h2
              exact sevOk_append (sevOk_mkError _ _ _) (ih _ hD)
            · obtain ⟨more, hD, h2⟩ := entryStep_ok h
              subst h2
              exact sevOk_append sevOk_nil (ih _ hD)
        · obtain ⟨more, hD, h2⟩ := entryStep_ok h
          subst h2
          exact sevOk_append sevOk_nil (ih _ hD)
      · obtain ⟨more, hD, h2⟩ := entryStep_ok h
        subst h2
        exact sevOk_append sevOk_nil (ih _ hD)

theorem sevOk_requestBodyPaths (document : JsValue) (content : String)
    (ext : CustomExtension) (pathsV : JsValue) :
    ∀ (ks : List String) (l : List ValidationError),
      validateRequestBodyPaths document content ext pathsV ks = Except.ok l →
      sevOk l := by
  intro ks
  induction ks with
  | nil =>
      intro l h
      injection h with h2
      subst h2
      exact sevOk_nil
  | cons k rest ih =>
      intro l h
      simp only [validateRequestBodyPaths] at h
      rw [bind_eq_ok] at h
      obtain ⟨pathItem, -, h⟩ := h
      obtain ⟨y, more, hA, hB, h2⟩ := chainStep_ok h
      subst h2
      exact sevOk_append
        (sevOk_requestBodyOps document content ext pathItem k _ y hA) (ih _ hB)

theorem sevOk_requestBody (document : JsValue) (content : String)
    (ext : CustomExtension) (l : List ValidationError)
    (h : validateRequestBodyExtension document content ext = Except.ok l) :
    sevOk l := by
  simp only [validateRequestBodyExtension] at h
  rw [bind_eq_ok] at h
  obtain ⟨pathsV, -, h⟩ := h
  split at h
  · exact sevOk_requestBodyPaths document content ext pathsV _ l h
  · rw [pure_eq_ok] at h
    injection h with h2
    subst h2
    exact sevOk_nil

theorem sevOk_section (document : JsValue) (content : String)
    (ext : CustomExtension) (l : List ValidationError)
    (h : validateExtensionInSection document content ext = Except.ok l) :
    sevOk l := by
  obtain ⟨loc, name, ty, req, desc⟩ := ext
  cases loc with
  | Root => exact sevOk_root document content _ l h
  | Servers => exact sevOk_servers document content _ l h
  | Tags => exact sevOk_tags document content _ l h
  | Parameters => exact sevOk_parameters document content _ l h
  | RequestBody => exact sevOk_requestBody document content _ l h

theorem sevOk_ruleFindings (document : JsValue) (content : String)
    (ext : CustomExtension) (l : List ValidationError)
    (h : ruleFindings document content ext = Except.ok l) : sevOk l := by
  rw [ruleFindings] at h
  split at h
  · injection h with h2
    subst h2
    exact sevOk_nil
  · exact sevOk_section document content ext l h

theorem sevOk_extensionErrors (document : JsValue) (content : String) :
    ∀ (rules : List CustomExtension) (l : List ValidationError),
      extensionErrors document content rules = Except.ok l → sevOk l := by
  intro rules
  induction rules with
  | nil =>
      intro l h
      injection h with h2
      subst h2
      exact sevOk_nil
  | cons r rest ih =>
      intro l h
      rw [extensionErrors_cons] at h
      obtain ⟨y, more, hA, hB, h2⟩ := chainStep_ok h
      subst h2
      exact sevOk_append (sevOk_ruleFindings document content r y hA) (ih _ hB)

/-- Schema findings are built by `mkError` and carry severity `error`. -/
theorem sevOk_schemaFindings (content : String) (errs : List AjvError) :
    sevOk (errs.map (mkSchemaFinding content)) := by
  intro e he
  rw [List.mem_map] at he
  obtain ⟨a, -, rfl⟩ := he
  rfl

/-- C10: every result the validator returns has an empty warnings array,
and every finding it carries has severity `error` — no operation of the
validator ever produces a warning-severity finding. -/
theorem C10_no_warning_findings (content : String)
    (parseResult : Except String JsValue)
    (schemaErrors : JsValue → List AjvError) (rules : List CustomExtension)
    (res : ValidationResult)
    (h : validateDocument content parseResult schemaErrors rules = Except.ok res) :
    res.warnings = [] ∧ ∀ e ∈ res.errors, e.severity = "error" := by
  cases parseResult with
  | error e =>
      unfold validateDocument at h
      injection h with h2
      subst h2
      refine ⟨rfl, ?_⟩
      intro e2 he
      rw [List.mem_singleton] at he
      subst he
      rfl
  | ok document =>
      cases hex : extensionErrors document content rules with
      | error e2 =>
          rw [validateDocument_error_shape content document schemaErrors rules e2 hex]
            at h
          exact Except.noConfusion h
      | ok l =>
          rw [validateDocument_ok_shape content document schemaErrors rules l hex]
            at h
          injection h with h2
          subst h2
          exact ⟨rfl, sevOk_append (sevOk_schemaFindings content _)
            (sevOk_extensionErrors document content rules l hex)⟩

/-- C10 witness: the property at a concrete successful call. -/
theorem C10_no_warning_findings_witness :
    (ValidationResult.mk true [] []).warnings = [] ∧
      ∀ e ∈ (ValidationResult.mk true [] []).errors, e.severity = "error" :=
  C10_no_warning_findings "a: 1" (Except.ok (JsValue.obj [("a", JsValue.num 1)]))
    (fun _ => []) [] (ValidationResult.mk true [] []) (by rfl)

/-- Reduction of a bind on a success value. -/
theorem ok_bind {α β : Type} (a : α) (f : α → Except JsError β) :
    (Except.ok a >>= f) = f a := rfl

/-- C6 counterexample: on a nested sequence the source scanner counts the
inner item line `- x: 1` (indentation 6) towards the index of the outer
`items` sequence (whose items sit at indentation 2), so `items/1` resolves
to line 4 (the nested item), while the algorithm as claimed — items counted
only at the matching indentation — resolves to line 5, the real second item. -/
theorem C6_counterexample :
    findYamlLocation "items:\n  - a: 1\n    subs:\n      - x: 1\n  - b: 2"
        "items/1" = some ⟨4, 9⟩ ∧
      findYamlLocationClaimed "items:\n  - a: 1\n    subs:\n      - x: 1\n  - b: 2"
        "items/1" = some ⟨5, 5⟩ := by
  constructor
  · decide
  · decide

/-- C6 amended: the scanner follows the stated algorithm except that the
running array index is incremented once per sequence-item line at any
indentation (nesting is ignored), and it is reset to -1 on every line whose
computed indentation is 0 — which includes blank lines.  With those
readings, the source loop is equivalent to the explicit state machine
`findYamlLocationAmended`: completion on an index match returns column
indentation + 3, completion on a key match returns column indentation + 1,
and returned line numbers are 1-based. -/
theorem C6_sequence_handling_amended (content : String) (extensionPath : String) :
    findYamlLocation content extensionPath =
      findYamlLocationAmended content extensionPath :=
  (runScan_eq_scanLines (pathPartsOf extensionPath) (splitLines content) 0 0 (-1)).symm

/-- On a truthy receiver `hasOwnProperty` cannot throw. -/
theorem hasOwn_of_truthy (v : JsValue) (key : String) (h : truthy v = true) :
    hasOwn v key = Except.ok (hasOwnPure v key) := by
  cases v with
  | nullV => exact absurd h (by decide)
  | undefV => exact absurd h (by decide)
  | str s => rfl
  | num n => rfl
  | bool b => rfl
  | arr xs => rfl
  | obj fs => rfl

/-- On a truthy receiver property read cannot throw. -/
theorem getProp_of_truthy (v : JsValue) (key : String) (h : truthy v = true) :
    getProp v key = Except.ok (getPropPure v key) := by
  cases v with
  | nullV => exact absurd h (by decide)
  | undefV => exact absurd h (by decide)
  | str s => rfl
  | num n => rfl
  | bool b => rfl
  | arr xs => rfl
  | obj fs => rfl

/-- Over truthy entries the servers walk emits exactly the per-entry
findings of the specification: one missing error per entry lacking the
field, one type-mismatch error per entry carrying it with the wrong type. -/
theorem validateServersEntries_expected (document : JsValue) (content : String)
    (ext : CustomExtension) :
    ∀ (entries : List JsValue) (index : Nat),
      (∀ e ∈ entries, truthy e = true) →
      validateServersEntries document content ext entries index =
        Except.ok (expectedServersFindings content ext entries index) := by
  intro entries
  induction entries with
  | nil => intro index htr; rfl
  | cons s rest ih =>
      intro index htr
      have hts : truthy s = true := htr s (List.mem_cons_self s rest)
      have htr2 : ∀ e ∈ rest, truthy e = true :=
        fun e he => htr e (List.mem_cons_of_mem s he)
      have h1 : hasExtension document ext.name (some s) =
          Except.ok (hasOwnPure s ext.name) := by
        rw [hasExtension, if_pos hts]
        exact hasOwn_of_truthy s ext.name hts
      have h2 : getProp s ext.name = Except.ok (getPropPure s ext.name) :=
        getProp_of_truthy s ext.name hts
      simp only [validateServersEntries, h1, ok_bind]
      by_cases hb : hasOwnPure s ext.name
      · simp only [hb, Bool.not_true, if_neg (by decide : ¬ (false = true)), h2, ok_bind]
        by_cases ht : validateExtensionType (getPropPure s ext.name) ext.type
        · simp only [ht, Bool.not_true, if_neg (by decide : ¬ (false = true)),
            ih _ htr2, ok_bind, pure_eq_ok, List.nil_append]
          simp [expectedServersFindings, expectedServerEntry, hb, ht]
        · simp only [ht, Bool.not_false, if_pos rfl, ih _ htr2, ok_bind, pure_eq_ok]
          simp [expectedServersFindings, expectedServerEntry, hb, ht,
            findExtensionLocation]
      · simp only [hb, Bool.not_false, if_pos rfl, ih _ htr2, ok_bind, pure_eq_ok]
        simp [expectedServersFindings, expectedServerEntry, hb, findExtensionLocation]

/-- C8 counterexample: a falsy entry (the number 0) in `servers`, with the
document root itself carrying `x-env`, lacks the named field yet produces a
type-mismatch error (value `undefined`) instead of the missing-extension
error the claim requires for an entry lacking the field. -/
theorem C8_counterexample :
    validateDocument "x-env: 1\nservers:\n  - 0"
      (Except.ok (JsValue.obj
        [("x-env", JsValue.num 1), ("servers", JsValue.arr [JsValue.num 0])]))
      (fun _ => [])
      [{ locIn := .Servers, name := "x-env", type := "number" }] =
      Except.ok
        { isValid := false
          errors :=
            [{ message :=
                 "Extension x-env in servers[0] should be of type number, got undefined"
               line := none
               column := none
               extensionName := "x-env"
               severity := "error" }]
          warnings := [] } := by
  rfl

/-- C8 amended: if `document.servers` is absent or not a sequence, the
servers rule emits nothing; over a servers sequence of non-falsy entries it
emits exactly one missing error per entry lacking the field and one
type-mismatch error per wrong-typed field.  (Falsy entries — null, false,
0, empty string — are excluded: the presence check falls back to the
document root for them, see the counterexample.) -/
theorem C8_servers_per_entry :
    (∀ (document : JsValue) (content : String) (ext : CustomExtension)
       (v : JsValue),
       getProp document "servers" = Except.ok v → isArray v = false →
       validateServersExtension document content ext = Except.ok []) ∧
    (∀ (document : JsValue) (content : String) (ext : CustomExtension)
       (entries : List JsValue),
       getProp document "servers" = Except.ok (JsValue.arr entries) →
       (∀ e ∈ entries, truthy e = true) →
       validateServersExtension document content ext =
         Except.ok (expectedServersFindings content ext entries 0)) := by
  constructor
  · intro document content ext v hv hna
    simp only [validateServersExtension, hv, ok_bind]
    rw [if_pos]
    · rfl
    · rw [hna]
      simp
  · intro document content ext entries hv htr
    simp only [validateServersExtension, hv, ok_bind]
    rw [if_neg (by simp [truthy, isArray])]
    exact validateServersEntries_expected document content ext entries 0 htr

/-- C8 witness: the two-entry scenario — only the second entry carries
`x-env` — produces exactly the missing error for index 0. -/
theorem C8_servers_per_entry_witness :
    validateServersExtension
      (JsValue.obj [("servers", JsValue.arr
        [JsValue.obj [("url", JsValue.str "a")],
         JsValue.obj [("url", JsValue.str "b"), ("x-env", JsValue.num 1)]])])
      "servers:\n  - url: a\n  - url: b\n    x-env: 1\n"
      { locIn := .Servers, name := "x-env", type := "number" } =
      Except.ok (expectedServersFindings
        "servers:\n  - url: a\n  - url: b\n    x-env: 1\n"
        { locIn := .Servers, name := "x-env", type := "number" }
        [JsValue.obj [("url", JsValue.str "a")],
         JsValue.obj [("url", JsValue.str "b"), ("x-env", JsValue.num 1)]] 0) :=
  C8_servers_per_entry.2
    (JsValue.obj [("servers", JsValue.arr
      [JsValue.obj [("url", JsValue.str "a")],
       JsValue.obj [("url", JsValue.str "b"), ("x-env", JsValue.num 1)]])])
    "servers:\n  - url: a\n  - url: b\n    x-env: 1\n"
    { locIn := .Servers, name := "x-env", type := "number" }
    [JsValue.obj [("url", JsValue.str "a")],
     JsValue.obj [("url", JsValue.str "b"), ("x-env", JsValue.num 1)]]
    (by rfl) (by decide)

/-- Characterization of a line that completes the scan: the returned line
number is the current one, and the column is indentation + 3 after an index
match of the final segment, or indentation + 1 after a key match of the
final segment. -/
theorem lineOutcome_found (pathParts : List String) (n : Nat) (line : List Char)
    (st : ScanState) (L C : Nat)
    (h : lineOutcome pathParts n line st = ScanStep.found ⟨L, C⟩) :
    L = n ∧
    ((startsDash (trimChars line) = true ∧ C = getIndentation line + 3 ∧
       pathParts.get? st.depth = some (toString (st.arrayIndex + 1)) ∧
       st.depth + 1 = pathParts.length) ∨
     (∃ k d1, matchKeyLine (trimChars line) = some k ∧
       C = getIndentation line + 1 ∧
       pathParts.get? d1 = some k ∧ d1 + 1 = pathParts.length)) := by
  unfold lineOutcome at h
  dsimp only [] at h
  repeat' split at h
  all_goals first
    | exact ScanStep.noConfusion h
    | (injection h with h2
       injection h2 with hL hC
       subst hL
       subst hC
       simp_all [Bool.and_eq_true, beq_iff_eq]
       try tauto)
  all_goals
    (rename_i hkey hlen
     cases hk : matchKeyLine (trimChars line) with
     | none => rw [hk] at hkey; exact absurd hkey (by simp)
     | some k =>
         rw [hk] at hkey
         simp only [beq_iff_eq] at hkey
         exact ⟨k, rfl, _, hkey, hlen⟩)

/-- The element at the final index is the last element. -/
theorem getLast?_of_get? {α : Type} :
    ∀ (l : List α) (d : Nat) (x : α), l.get? d = some x → d + 1 = l.length →
      l.getLast? = some x := by
  intro l
  induction l with
  | nil =>
      intro d x h hlen
      exact absurd h (by simp)
  | cons a t ih =>
      intro d x h hlen
      cases t with
      | nil =>
          have hd : d = 0 := by
            simp only [List.length_cons, List.length_nil] at hlen
            omega
          subst hd
          simp only [List.get?] at h
          injection h with h2
          subst h2
          rfl
      | cons b t2 =>
          have hd : d = t2.length + 1 := by
            simp only [List.length_cons] at hlen
            omega
          rw [List.getLast?_cons_cons]
          subst hd
          refine ih (t2.length) x ?_ (by simp)
          simpa using h

/-- From any intermediate state, a successful scan points at an in-range
line whose content matches the final path segment: a sequence-item line
with column indentation + 3, or a key line for the final segment with
column indentation + 1. -/
theorem runScan_found (pathParts : List String) :
    ∀ (ls : List (List Char)) (n : Nat) (st : ScanState) (L C : Nat),
      runScan pathParts ls n st = some ⟨L, C⟩ →
      n ≤ L ∧ L - n < ls.length ∧
      ∃ cs, ls.get? (L - n) = some cs ∧
        ((startsDash (trimChars cs) = true ∧ C = getIndentation cs + 3 ∧
           (∃ x : Int, pathParts.getLast? = some (toString x))) ∨
         (∃ k, matchKeyLine (trimChars cs) = some k ∧
           C = getIndentation cs + 1 ∧ pathParts.getLast? = some k)) := by
  intro ls
  induction ls with
  | nil =>
      intro n st L C h
      exact absurd h (by simp [runScan])
  | cons line rest ih =>
      intro n st L C h
      rw [runScan] at h
      cases hout : lineOutcome pathParts n line st with
      | found p =>
          rw [hout] at h
          injection h with h2
          subst h2
          obtain ⟨hL, hcase⟩ := lineOutcome_found pathParts n line st L C hout
          subst hL
          refine ⟨Nat.le_refl _, by simp, line, by simp, ?_⟩
          rcases hcase with ⟨h1, h2, h3, h4⟩ | ⟨k, d1, h1, h2, h3, h4⟩
          · exact Or.inl ⟨h1, h2, st.arrayIndex + 1, getLast?_of_get? _ _ _ h3 h4⟩
          · exact Or.inr ⟨k, h1, h2, getLast?_of_get? _ _ _ h3 h4⟩
      | cont st2 =>
          rw [hout] at h
          obtain ⟨h1, h2, cs, h3, h4⟩ := ih (n + 1) st2 L C h
          refine ⟨by omega, ?_, cs, ?_, h4⟩
          · simp only [List.length_cons]
            omega
          · have he : L - n = (L - (n + 1)) + 1 := by omega
            rw [he]
            simpa using h3

/-- C5 counterexample: in the document with a nested mapping key `c` at
line 3 (under `a.b`) and a root-level key `c` at line 4 column 1, lookup of
the root path `c` returns line 3 column 5 — the nested occurrence — not the
actual position of the path key, because the scan ignores nesting. -/
theorem C5_counterexample :
    findYamlLocation "a:\n  b:\n    c: 1\nc: 2" "c" = some ⟨3, 5⟩ ∧
      (⟨3, 5⟩ : YamlPos) ≠ ⟨4, 1⟩ := by
  constructor
  · decide
  · decide

/-- C5 amended: the resolver is a heuristic linear scan, not an exact
locator.  What holds of every returned position: the line number is 1-based
and within the document, and the returned line is one whose content matched
the final path segment — a sequence-item line with column indentation + 3
when the final segment is an array index print, or a line whose key regex
match equals the final segment with column indentation + 1.  The matched
line may differ from the true location of the path (first match in scan
order wins), and a structurally absent path may still resolve; `none` is
returned exactly when the scan completes without matching all segments. -/
theorem C5_amended (content : String) (extensionPath : String) (L C : Nat)
    (h : findYamlLocation content extensionPath = some ⟨L, C⟩) :
    1 ≤ L ∧ L ≤ (splitLines content).length ∧
    ∃ cs, (splitLines content).get? (L - 1) = some cs ∧
      ((startsDash (trimChars cs) = true ∧ C = getIndentation cs + 3 ∧
         (∃ x : Int, (pathPartsOf extensionPath).getLast? = some (toString x))) ∨
       (∃ k, matchKeyLine (trimChars cs) = some k ∧
         C = getIndentation cs + 1 ∧
         (pathPartsOf extensionPath).getLast? = some k)) := by
  have h2 : runScan (pathPartsOf extensionPath) (splitLines content) 1 ⟨0, -1⟩ =
      some ⟨L, C⟩ := by
    rw [runScan_eq_scanLines]
    exact h
  obtain ⟨hge, hlt, cs, hget, hcase⟩ :=
    runScan_found (pathPartsOf extensionPath) (splitLines content) 1 ⟨0, -1⟩ L C h2
  exact ⟨hge, by omega, cs, hget, hcase⟩

/-- C5 witness: the single-line document, where the key is found at line 1,
column 1, and the returned line indeed carries the final segment as key. -/
theorem C5_amended_witness :
    1 ≤ 1 ∧ 1 ≤ (splitLines "a: 1").length ∧
    ∃ cs, (splitLines "a: 1").get? (1 - 1) = some cs ∧
      ((startsDash (trimChars cs) = true ∧ 1 = getIndentation cs + 3 ∧
         (∃ x : Int, (pathPartsOf "a").getLast? = some (toString x))) ∨
       (∃ k, matchKeyLine (trimChars cs) = some k ∧
         1 = getIndentation cs + 1 ∧
         (pathPartsOf "a").getLast? = some k)) :=
  C5_amended "a: 1" "a" 1 1 (by decide)

/-- A blank or comment line never matches the item marker or the key regex;
its only effect is the usual end-of-iteration reset of the running index
when its computed indentation is 0 (which holds for every blank line and
every column-0 comment). -/
theorem scanLines_skip_line (pathParts : List String) (line : List Char)
    (rest : List (List Char)) (i depth : Nat) (arrayIndex : Int)
    (h : trimChars line = [] ∨ (trimChars line).head? = some '#') :
    scanLines pathParts (line :: rest) i depth arrayIndex =
      scanLines pathParts rest (i + 1) depth
        (if getIndentation line == 0 then -1 else arrayIndex) := by
  have hd : startsDash (trimChars line) = false := by
    rcases h with h | h
    · rw [h]
      rfl
    · cases hc : trimChars line with
      | nil => rfl
      | cons c t =>
          rw [hc] at h
          simp only [List.head?_cons, Option.some.injEq] at h
          subst h
          rfl
  have hk : matchKeyLine (trimChars line) = none := by
    rcases h with h | h
    · rw [h]
      rfl
    · cases hc : trimChars line with
      | nil => rfl
      | cons c t =>
          rw [hc] at h
          simp only [List.head?_cons, Option.some.injEq] at h
          subst h
          rfl
  rw [scanLines_cons]
  have hout : lineOutcome pathParts (i + 1) line ⟨depth, arrayIndex⟩ =
      ScanStep.cont ⟨depth, if getIndentation line == 0 then -1 else arrayIndex⟩ := by
    simp [lineOutcome, hd, hk]
  rw [hout]

/-- Decimal digit characters produced by `Nat.digitChar` below base 10. -/
theorem digitChar_isDigit (m : Nat) (h : m < 10) :
    (Nat.digitChar m).isDigit = true := by
  interval_cases m <;> decide

/-- All characters accumulated by the base-10 digit printer are digits. -/
theorem toDigitsCore_digits :
    ∀ (fuel n : Nat) (acc : List Char), (∀ c ∈ acc, c.isDigit = true) →
      ∀ c ∈ Nat.toDigitsCore 10 fuel n acc, c.isDigit = true := by
  intro fuel
  induction fuel with
  | zero => intro n acc hacc c hc; exact hacc c hc
  | succ f ih =>
      intro n acc hacc c hc
      rw [Nat.toDigitsCore] at hc
      have hdig : (Nat.digitChar (n % 10)).isDigit = true :=
        digitChar_isDigit _ (Nat.mod_lt _ (by decide))
      split at hc
      · rcases List.mem_cons.1 hc with rfl | hmem
        · exact hdig
        · exact hacc c hmem
      · refine ih _ _ ?_ c hc
        intro c2 h2
        rcases List.mem_cons.1 h2 with rfl | h3
        · exact hdig
        · exact hacc c2 h3

/-- Every character of the decimal print of a natural number is a digit. -/
theorem natRepr_digits (n : Nat) : ∀ c ∈ (Nat.repr n).data, c.isDigit = true := by
  intro c hc
  have he : (Nat.repr n).data = Nat.toDigitsCore 10 (n + 1) n [] := rfl
  rw [he] at hc
  exact toDigitsCore_digits (n + 1) n [] (by intro c2 h2; cases h2) c hc

/-- Digits are in the conservative key character set. -/
theorem keyChar_of_digit (c : Char) (h : c.isDigit = true) : isKeyChar c = true := by
  simp [isKeyChar, h]

/-- Every character of the decimal print of an integer is in the key
character set (a minus sign or a digit). -/
theorem intToString_keyChars (i : Int) :
    ∀ c ∈ (toString i).data, isKeyChar c = true := by
  intro c hc
  cases i with
  | ofNat m =>
      have he : (toString (Int.ofNat m)).data = (Nat.repr m).data := rfl
      rw [he] at hc
      exact keyChar_of_digit c (natRepr_digits m c hc)
  | negSucc m =>
      have he : (toString (Int.negSucc m)).data = '-' :: (Nat.repr (m + 1)).data := rfl
      rw [he] at hc
      rcases List.mem_cons.1 hc with rfl | h2
      · decide
      · exact keyChar_of_digit c (natRepr_digits (m + 1) c h2)

/-- A key produced by the head-of-line key match consists of key characters
only. -/
theorem parseKeyFrom_keyChars (cs : List Char) (k : String)
    (h : parseKeyFrom cs = some k) : ∀ c ∈ k.data, isKeyChar c = true := by
  unfold parseKeyFrom at h
  cases htw : cs.takeWhile isKeyChar with
  | nil =>
      rw [htw] at h
      exact absurd h (by simp)
  | cons a t =>
      rw [htw] at h
      dsimp only [] at h
      split at h
      · injection h with h2
        subst h2
        intro c hc
        have hm : c ∈ cs.takeWhile isKeyChar := by
          rw [htw]
          exact hc
        exact List.mem_takeWhile_imp hm
      · exact absurd h (by simp)

/-- A key matched by the full line regex consists of key characters only. -/
theorem matchKeyLine_keyChars (cs : List Char) (k : String)
    (h : matchKeyLine cs = some k) : ∀ c ∈ k.data, isKeyChar c = true := by
  unfold matchKeyLine at h
  split at h
  · dsimp only [] at h
    split at h
    · exact parseKeyFrom_keyChars _ _ h
    · split at h
      · rename_i heq
        injection h with h2
        subst h2
        exact parseKeyFrom_keyChars _ _ heq
      · exact parseKeyFrom_keyChars _ _ h
  · exact parseKeyFrom_keyChars _ _ h

/-- A path containing a segment with a character outside the key character
set can never complete: the scan leaves the depth at or below the position
of that segment and returns none. -/
theorem scanLines_stuck (pathParts : List String) (j : Nat) (seg : String)
    (hseg : pathParts.get? j = some seg)
    (c0 : Char) (hmem : c0 ∈ seg.data) (hc0 : isKeyChar c0 = false) :
    ∀ (ls : List (List Char)) (i depth : Nat) (arrayIndex : Int), depth ≤ j →
      scanLines pathParts ls i depth arrayIndex = none := by
  have hjlen : j < pathParts.length := by
    obtain ⟨hlt, -⟩ := List.get?_eq_some.1 hseg
    exact hlt
  have hIdx : ∀ (x : Int), pathParts.get? j ≠ some (toString x) := by
    intro x hx
    rw [hseg] at hx
    injection hx with h2
    have hm2 : c0 ∈ (toString x).data := by
      rw [← h2]
      exact hmem
    have h3 := intToString_keyChars x c0 hm2
    rw [hc0] at h3
    exact Bool.noConfusion h3
  have hKey : ∀ (k : String) (cs : List Char), matchKeyLine cs = some k →
      pathParts.get? j ≠ some k := by
    intro k cs hk hx
    rw [hseg] at hx
    injection hx with h2
    have hm2 : c0 ∈ k.data := h2 ▸ hmem
    have h3 := matchKeyLine_keyChars cs k hk c0 hm2
    rw [hc0] at h3
    exact Bool.noConfusion h3
  intro ls
  induction ls with
  | nil => intro i depth ai hd; rfl
  | cons line rest ih =>
      intro i depth ai hd
      simp only [scanLines]
      repeat' split
      all_goals try (exact ih _ _ _ hd)
      all_goals simp_all only [Bool.and_eq_true, beq_iff_eq, Bool.false_and,
        Bool.true_and, Bool.false_eq_true, true_and, false_and, and_true,
        and_false, not_false_eq_true]
      case isTrue.isTrue.isTrue =>
        exfalso
        rename_i hB hC
        rcases Nat.lt_or_ge depth j with hlt | hge
        · rw [← hC] at hjlen
          exact Nat.lt_irrefl depth (Nat.lt_of_lt_of_le hlt (Nat.lt_succ_iff.mp hjlen))
        · have he : depth = j := Nat.le_antisymm hd hge
          rw [he, hseg] at hB
          exact hIdx (ai + 1) hB
      case isTrue.isTrue.isFalse.isTrue.isTrue =>
        exfalso
        rename_i hB hC hD hE
        have hdlt : depth < j := by
          rcases Nat.lt_or_ge depth j with hlt | hge
          · exact hlt
          · exfalso
            have he : depth = j := Nat.le_antisymm hd hge
            rw [he, hseg] at hB
            exact hIdx (ai + 1) hB
        cases hk : matchKeyLine (trimChars line) with
        | none => rw [hk] at hD; simp at hD
        | some k =>
            rw [hk] at hD
            simp only [beq_iff_eq] at hD
            rcases Nat.lt_or_ge (depth + 1) j with hlt1 | hge1
            · rw [← hE] at hjlen
              exact Nat.lt_irrefl (depth + 1)
                (Nat.lt_of_lt_of_le hlt1 (Nat.lt_succ_iff.mp hjlen))
            · have he : depth + 1 = j := Nat.le_antisymm (Nat.succ_le_of_lt hdlt) hge1
              rw [he, hseg] at hD
              exact hKey k (trimChars line) hk hD
      case isTrue.isTrue.isFalse.isTrue.isFalse.isTrue =>
        rename_i hB hC hD hE hF
        have hdlt : depth < j := by
          rcases Nat.lt_or_ge depth j with hlt | hge
          · exact hlt
          · exfalso
            have he : depth = j := Nat.le_antisymm hd hge
            rw [he, hseg] at hB
            exact hIdx (ai + 1) hB
        cases hk : matchKeyLine (trimChars line) with
        | none => rw [hk] at hD; simp at hD
        | some k =>
            rw [hk] at hD
            simp only [beq_iff_eq] at hD
            have h2 : depth + 1 < j := by
              rcases Nat.lt_or_ge (depth + 1) j with hlt1 | hge1
              · exact hlt1
              · exfalso
                have he : depth + 1 = j :=
                  Nat.le_antisymm (Nat.succ_le_of_lt hdlt) hge1
                rw [he, hseg] at hD
                exact hKey k (trimChars line) hk hD
            exact ih _ _ _ (Nat.succ_le_of_lt h2)
      case isTrue.isTrue.isFalse.isTrue.isFalse.isFalse =>
        rename_i hB hC hD hE hF
        have hdlt : depth < j := by
          rcases Nat.lt_or_ge depth j with hlt | hge
          · exact hlt
          · exfalso
            have he : depth = j := Nat.le_antisymm hd hge
            rw [he, hseg] at hB
            exact hIdx (ai + 1) hB
        cases hk : matchKeyLine (trimChars line) with
        | none => rw [hk] at hD; simp at hD
        | some k =>
            rw [hk] at hD
            simp only [beq_iff_eq] at hD
            have h2 : depth + 1 < j := by
              rcases Nat.lt_or_ge (depth + 1) j with hlt1 | hge1
              · exact hlt1
              · exfalso
                have he : depth + 1 = j :=
                  Nat.le_antisymm (Nat.succ_le_of_lt hdlt) hge1
                rw [he, hseg] at hD
                exact hKey k (trimChars line) hk hD
            exact ih _ _ _ (Nat.succ_le_of_lt h2)
      case isTrue.isTrue.isFalse.isFalse.isFalse.isTrue =>
        rename_i hB hC hD hF
        have hdlt : depth < j := by
          rcases Nat.lt_or_ge depth j with hlt | hge
          · exact hlt
          · exfalso
            have he : depth = j := Nat.le_antisymm hd hge
            rw [he, hseg] at hB
            exact hIdx (ai + 1) hB
        exact ih _ _ _ (Nat.succ_le_of_lt hdlt)
      case isTrue.isTrue.isFalse.isFalse.isFalse.isFalse =>
        rename_i hB hC hD hF
        have hdlt : depth < j := by
          rcases Nat.lt_or_ge depth j with hlt | hge
          · exact hlt
          · exfalso
            have he : depth = j := Nat.le_antisymm hd hge
            rw [he, hseg] at hB
            exact hIdx (ai + 1) hB
        exact ih _ _ _ (Nat.succ_le_of_lt hdlt)
      case isTrue.isFalse.isFalse.isTrue.isTrue =>
        exfalso
        rename_i hD hE
        cases hk : matchKeyLine (trimChars line) with
        | none => rw [hk] at hD; simp at hD
        | some k =>
            rw [hk] at hD
            simp only [beq_iff_eq] at hD
            rcases Nat.lt_or_ge depth j with hlt | hge
            · rw [← hE] at hjlen
              exact Nat.lt_irrefl depth
                (Nat.lt_of_lt_of_le hlt (Nat.lt_succ_iff.mp hjlen))
            · have he : depth = j := Nat.le_antisymm hd hge
              rw [he, hseg] at hD
              exact hKey k (trimChars line) hk hD
      case isFalse.isFalse.isFalse.isTrue.isTrue =>
        exfalso
        rename_i hD hE
        cases hk : matchKeyLine (trimChars line) with
        | none => rw [hk] at hD; simp at hD
        | some k =>
            rw [hk] at hD
            simp only [beq_iff_eq] at hD
            rcases Nat.lt_or_ge depth j with hlt | hge
            · rw [← hE] at hjlen
              exact Nat.lt_irrefl depth
                (Nat.lt_of_lt_of_le hlt (Nat.lt_succ_iff.mp hjlen))
            · have he : depth = j := Nat.le_antisymm hd hge
              rw [he, hseg] at hD
              exact hKey k (trimChars line) hk hD
      case isTrue.isFalse.isFalse.isTrue.isFalse.isTrue =>
        rename_i hD hE hF
        cases hk : matchKeyLine (trimChars line) with
        | none => rw [hk] at hD; simp at hD
        | some k =>
            rw [hk] at hD
            simp only [beq_iff_eq] at hD
            have h2 : depth < j := by
              rcases Nat.lt_or_ge depth j with hlt | hge
              · exact hlt
              · exfalso
                have he : depth = j := Nat.le_antisymm hd hge
                rw [he, hseg] at hD
                exact hKey k (trimChars line) hk hD
            exact ih _ _ _ (Nat.succ_le_of_lt h2)
      case isTrue.isFalse.isFalse.isTrue.isFalse.isFalse =>
        rename_i hD hE hF
        cases hk : matchKeyLine (trimChars line) with
        | none => rw [hk] at hD; simp at hD
        | some k =>
            rw [hk] at hD
            simp only [beq_iff_eq] at hD
            have h2 : depth < j := by
              rcases Nat.lt_or_ge depth j with hlt | hge
              · exact hlt
              · exfalso
                have he : depth = j := Nat.le_antisymm hd hge
                rw [he, hseg] at hD
                exact hKey k (trimChars line) hk hD
            exact ih _ _ _ (Nat.succ_le_of_lt h2)
      case isFalse.isFalse.isFalse.isTrue.isFalse.isTrue =>
        rename_i hD hE hF
        cases hk : matchKeyLine (trimChars line) with
        | none => rw [hk] at hD; simp at hD
        | some k =>
            rw [hk] at hD
            simp only [beq_iff_eq] at hD
            have h2 : depth < j := by
              rcases Nat.lt_or_ge depth j with hlt | hge
              · exact hlt
              · exfalso
                have he : depth = j := Nat.le_antisymm hd hge
                rw [he, hseg] at hD
                exact hKey k (trimChars line) hk hD
            exact ih _ _ _ (Nat.succ_le_of_lt h2)
      case isFalse.isFalse.isFalse.isTrue.isFalse.isFalse =>
        rename_i hD hE hF
        cases hk : matchKeyLine (trimChars line) with
        | none => rw [hk] at hD; simp at hD
        | some k =>
            rw [hk] at hD
            simp only [beq_iff_eq] at hD
            have h2 : depth < j := by
              rcases Nat.lt_or_ge depth j with hlt | hge
              · exact hlt
              · exfalso
                have he : depth = j := Nat.le_antisymm hd hge
                rw [he, hseg] at hD
                exact hKey k (trimChars line) hk hD
            exact ih _ _ _ (Nat.succ_le_of_lt h2)

/-- Once a prefix of the lines yields a position, later lines cannot change
it: the scan returns the first completion in document order. -/
theorem scanLines_found_append (pathParts : List String) :
    ∀ (ls rest : List (List Char)) (i depth : Nat) (arrayIndex : Int)
      (pos : YamlPos),
      scanLines pathParts ls i depth arrayIndex = some pos →
      scanLines pathParts (ls ++ rest) i depth arrayIndex = some pos := by
  intro ls
  induction ls with
  | nil =>
      intro rest i depth arrayIndex pos h
      exact absurd h (by simp [scanLines])
  | cons line t ih =>
      intro rest i depth arrayIndex pos h
      rw [scanLines_cons] at h
      rw [List.cons_append, scanLines_cons]
      cases hout : lineOutcome pathParts (i + 1) line ⟨depth, arrayIndex⟩ with
      | found p =>
          rw [hout] at h
          exact h
      | cont st2 =>
          rw [hout] at h
          exact ih rest (i + 1) st2.depth st2.arrayIndex pos h

/-- C7 counterexample: inserting a comment line at column 0 between two
sequence items resets the running array index, so the same path that
resolved to line 4 in the comment-free document now fails to resolve at
all — comment lines are not position-neutral. -/
theorem C7_counterexample :
    findYamlLocation "servers:\n  - url: a\n# comment\n  - url: b\n    x-env: 1"
        "servers/1/x-env" = none ∧
      findYamlLocation "servers:\n  - url: a\n  - url: b\n    x-env: 1"
        "servers/1/x-env" = some ⟨4, 5⟩ := by
  constructor
  · decide
  · decide

/-- C7 amended: comment and blank lines never match a key or a sequence
item, but they are not position-neutral: like every scanned line, one whose
computed indentation is 0 — every blank line and every column-0 comment —
resets the running array index, which can change or destroy the returned
position.  Duplicate keys resolve to the first completion in document
order: whatever a prefix of the lines resolves to is unaffected by the
lines after it.  Keys outside letters, digits, underscore and hyphen are
never matched, so a path containing such a segment returns none. -/
theorem C7_edge_cases_amended :
    (∀ (pathParts : List String) (line : List Char) (rest : List (List Char))
       (i depth : Nat) (arrayIndex : Int),
       trimChars line = [] ∨ (trimChars line).head? = some '#' →
       scanLines pathParts (line :: rest) i depth arrayIndex =
         scanLines pathParts rest (i + 1) depth
           (if getIndentation line == 0 then -1 else arrayIndex)) ∧
    (∀ (content extensionPath seg : String),
       seg ∈ pathPartsOf extensionPath →
       (∃ c ∈ seg.data, isKeyChar c = false) →
       findYamlLocation content extensionPath = none) ∧
    (∀ (pathParts : List String) (ls rest : List (List Char)) (i depth : Nat)
       (arrayIndex : Int) (pos : YamlPos),
       scanLines pathParts ls i depth arrayIndex = some pos →
       scanLines pathParts (ls ++ rest) i depth arrayIndex = some pos) := by
  refine ⟨scanLines_skip_line, ?_, scanLines_found_append⟩
  intro content extensionPath seg hmem hbad
  obtain ⟨c0, hc0m, hc0⟩ := hbad
  obtain ⟨j, hj⟩ := List.get?_of_mem hmem
  exact scanLines_stuck (pathPartsOf extensionPath) j seg hj c0 hc0m hc0
    (splitLines content) 0 0 (-1) (Nat.zero_le j)

/-- C7 witness: a path whose only segment carries a dot is never located. -/
theorem C7_edge_cases_amended_witness : findYamlLocation "a: 1" "x.y" = none :=
  C7_edge_cases_amended.2.1 "a: 1" "x.y" "x.y" (by decide)
    ⟨'.', by decide, by decide⟩
